import Mathlib

/-!
# weave-llvm-src: archive discovery, destination mapping and extraction

A shallow embedding of `weave.go` and the properties of its three parts:
`collectArchives` (discovery), `expandArchives` (destinations) and
`expandTarXz` (extraction).

* Go strings are lists of characters (`Str`).
* The functions of `path/filepath` that the program calls (`Clean`, `Join`,
  `Rel`, `Dir`) follow their Unix implementation, element by element.
* `ioutil.ReadDir` is its result: the entry names, or an error.
* The file system is a map from places to nodes (`FileTree`); what the
  operating system decides on its own (the working directory, the name of the
  temporary directory, the decoded archives, failing calls) is a parameter
  (`Env`).
-/

namespace Weave

/-- Go `string`, as a list of characters. -/
abbrev Str := List Char

/-! ## `path/filepath` (Unix) -/

/-- Split a path at every separator `/`; `"a//b"` gives `["a", "", "b"]`. -/
def splitSlash : Str → List Str
  | [] => [[]]
  | c :: cs =>
    if c = '/' then [] :: splitSlash cs
    else
      match splitSlash cs with
      | [] => [[c]]
      | x :: xs => (c :: x) :: xs

/-- Join path elements with `/` between them. -/
def joinSlash : List Str → Str
  | [] => []
  | [x] => x
  | x :: y :: r => x ++ '/' :: joinSlash (y :: r)

/-- Whether a path starts with the separator. -/
def isRooted : Str → Bool
  | '/' :: _ => true
  | _ => false

/-- One round of the loop of `filepath.Clean`, on the next path element `e`.
The output buffer is kept as a stack of elements, the last one first.  An
empty element and `.` are skipped; `..` removes the last element when there
is one to remove (`out.w > dotdot`), is appended when the path is not rooted,
and is dropped otherwise; any other element is appended. -/
def cleanStep (rooted : Bool) (stack : List Str) (e : Str) : List Str :=
  if e = [] then stack
  else if e = ['.'] then stack
  else if e = ['.', '.'] then
    match stack with
    | top :: below =>
      if top ≠ ['.', '.'] then below
      else if rooted then stack else e :: stack
    | [] => if rooted then stack else e :: stack
  else e :: stack

/-- The output buffer of `filepath.Clean` when it has read the whole path. -/
def cleanStack (p : Str) : List Str :=
  (splitSlash p).foldl (cleanStep (isRooted p)) []

/-- The string `filepath.Clean` returns for a rootedness flag and a buffer:
the elements in order with `/` between them, after the leading `/` of a
rooted path, and `.` for the empty relative path. -/
def renderPath (rooted : Bool) (stack : List Str) : Str :=
  if rooted then '/' :: joinSlash stack.reverse
  else if stack = [] then ['.']
  else joinSlash stack.reverse

/-- Go `filepath.Clean`. -/
def filepath.Clean (p : Str) : Str :=
  renderPath (isRooted p) (cleanStack p)

/-- Go `filepath.Join` of two elements: empty leading elements are ignored,
the rest is joined with `/` and cleaned. -/
def filepath.Join (a b : Str) : Str :=
  if a ≠ [] then filepath.Clean (a ++ '/' :: b)
  else if b ≠ [] then filepath.Clean b
  else []

/-! ## The archive name pattern -/

/-- The class `\d`: an ASCII digit. -/
def isDigit (c : Char) : Bool := decide ('0' ≤ c) && decide (c ≤ '9')

/-- Greedy `\d+`: the longest run of digits, which must not be empty, and the
rest of the input.  What follows `\d+` in the pattern is a literal `.`, so no
shorter run can lead to a match. -/
def digitsPlus (s : Str) : Option (Str × Str) :=
  if s.takeWhile isDigit = [] then none
  else some (s.takeWhile isDigit, s.dropWhile isDigit)

/-- A literal `.` of the pattern. -/
def dotThen : Str → Option Str
  | '.' :: r => some r
  | _ => none

/-- The fixed end of the pattern, `\.src\.tar\.xz$`. -/
def archiveSuffix : Str := ".src.tar.xz".toList

/-- The part of the pattern after the stem,
`-(?P<version>\d+\.\d+\.\d+)\.src\.tar\.xz$`, matched against the whole rest
of the input; gives the captured version. -/
def matchVersionTail : Str → Option Str
  | '-' :: r0 =>
    match digitsPlus r0 with
    | none => none
    | some (major, r1) =>
      match dotThen r1 with
      | none => none
      | some r2 =>
        match digitsPlus r2 with
        | none => none
        | some (minor, r3) =>
          match dotThen r3 with
          | none => none
          | some r4 =>
            match digitsPlus r4 with
            | none => none
            | some (patch, r5) =>
              if r5 = archiveSuffix then some (major ++ '.' :: minor ++ '.' :: patch)
              else none
  | _ => none

/-- The greedy `(?P<stem>^.*)`: with `stem` already consumed, first try to
let `.*` take one more character (never a newline), and only then try to
match the rest of the pattern here.  Gives the stem and the version. -/
def matchStem (stem : Str) : Str → Option (Str × Str)
  | [] => (matchVersionTail []).map (fun v => (stem, v))
  | c :: cs =>
    match (if c = '\n' then none else matchStem (stem ++ [c]) cs) with
    | some r => some r
    | none => (matchVersionTail (c :: cs)).map (fun v => (stem, v))

/-- The captures of `rxArchive.FindStringSubmatch(name)` by name: the whole
match (the pattern is anchored at both ends, so the whole name), `stem` and
`version`; `none` when the name does not match. -/
def rxArchive (name : Str) : Option (Str × Str × Str) :=
  (matchStem [] name).map (fun sv => (name, sv.1, sv.2))

/-! ## Archive records and discovery -/

/-- Go `Archive`. -/
structure Archive where
  path : Str
  name : Str
  version : Str
deriving DecidableEq, Repr

/-- Reasons for `expandTarXz` to return an error. -/
inductive ExtractError
  | mkdirParent
  | tempDir
  | openInput
  | xzReader
  | tarHeader
  | mkdirEntry (outPath : Str)
  | createFile (outPath : Str)
  | copyContents (outPath : Str)
  | closeFile (outPath : Str)
  | closeInput
  | removeDst (dstDir : Str)
deriving DecidableEq, Repr

/-- The errors `weave` can return. -/
inductive WeaveError
  | scanFailed (srcDir : Str)
  | noMatchingArchives (srcDir : Str)
  | missingCore (srcDir : Str)
  | unknownComponent (name : Str)
  | extraction (e : ExtractError)
deriving DecidableEq, Repr

/-- The component name of the LLVM core. -/
def llvmName : Str := "llvm".toList

/-- The record `collectArchives` appends for a directory entry, if its name
matches the pattern. -/
def archiveOf (srcDir f : Str) : Option Archive :=
  match rxArchive f with
  | none => none
  | some (whole, stem, version) => some ⟨filepath.Join srcDir whole, stem, version⟩

/-- The scanning loop of `collectArchives`. -/
def scanEntries (srcDir : Str) (d : List Str) : List Archive :=
  d.foldl (fun archives f =>
    match archiveOf srcDir f with
    | none => archives
    | some a => archives ++ [a]) []

/-- The loop of `findLLVMCore`, at index `i`. -/
def findLLVMCoreFrom : Nat → List Archive → Int
  | _, [] => -1
  | i, a :: rest => if a.name = llvmName then (i : Int) else findLLVMCoreFrom (i + 1) rest

/-- Go `findLLVMCore`: the index of the first record named `llvm`, or -1. -/
def findLLVMCore (archives : List Archive) : Int :=
  findLLVMCoreFrom 0 archives

/-- The last loop of `collectArchives`: a record whose version differs from
the core's is logged as rejected, and every record is appended to `matched`.
Gives `matched` and the paths logged as rejected. -/
def retainLoop (llvm : Archive) (archives : List Archive) : List Archive × List Str :=
  archives.foldl (fun st a =>
    ((st.1 ++ [a]), (if a.version ≠ llvm.version then st.2 ++ [a.path] else st.2)))
    ([], [])

/-- Go `collectArchives`; `readDir` is what `ioutil.ReadDir(srcDir)` gave:
the entry names, or `none` for an error.  The index `findLLVMCore` returns is
in range when it is not negative, so the `none` case of the lookup is never
taken. -/
def collectArchives (srcDir : Str) (readDir : Option (List Str)) :
    Except WeaveError (List Archive) :=
  match readDir with
  | none => .error (.scanFailed srcDir)
  | some d =>
    let archives := scanEntries srcDir d
    if archives.length = 0 then .error (.noMatchingArchives srcDir)
    else
      let idx := findLLVMCore archives
      if idx < 0 then .error (.missingCore srcDir)
      else
        match archives.get? idx.toNat with
        | none => .error (.missingCore srcDir)
        | some llvm =>
          let rest := archives.take idx.toNat ++ archives.drop (idx.toNat + 1)
          .ok (llvm :: (retainLoop llvm rest).1)

/-- The paths `collectArchives` logs as rejected for a version mismatch. -/
def rejectedPaths (srcDir : Str) (d : List Str) : List Str :=
  let archives := scanEntries srcDir d
  match archives.get? (findLLVMCore archives).toNat with
  | none => []
  | some llvm =>
    (retainLoop llvm (archives.take (findLLVMCore archives).toNat ++
      archives.drop ((findLLVMCore archives).toNat + 1))).2

/-! ## More of `path/filepath` -/

/-- The elements the comparison loop of `filepath.Rel` walks over in a cleaned
path: the parts between separators, with no element after the final `/` of the
root path and none at all in the empty string. -/
def relElems (p : Str) : List Str :=
  if p = [] then [] else if p = ['/'] then [[]] else splitSlash p

/-- The comparison loop of `filepath.Rel`: skip the elements that base and
target have in common.  Gives what is left of both from the first differing
element on, and whether the loop stopped at a difference (rather than at the
end of one of the paths). -/
def relSkipCommon : List Str → List Str → List Str × List Str × Bool
  | b :: bs, t :: ts =>
    if t = b then relSkipCommon bs ts else (b :: bs, t :: ts, true)
  | bs, ts => (bs, ts, false)

/-- The result `filepath.Rel` builds: one `..` for every base element left,
then what is left of the target. -/
def relUp (bs ts : List Str) : Str :=
  joinSlash (bs.map (fun _ => ['.', '.']) ++ ts)

/-- Go `filepath.Rel`; `none` stands for its error.  Both paths are cleaned;
equal paths give `.`; a rooted and an unrooted path give an error; otherwise
the common elements are skipped, and the result goes up once for every base
element left and then down the rest of the target.  A base whose first
differing element is `..` gives an error.  In `expandTarXz` the base is
`<name>-<version>.src`, which cleans to a single name. -/
def filepath.Rel (basepath targpath : Str) : Option Str :=
  if filepath.Clean targpath = filepath.Clean basepath then some ['.']
  else
    let base := if filepath.Clean basepath = ['.'] then [] else filepath.Clean basepath
    let targ := filepath.Clean targpath
    if isRooted base ≠ isRooted targ then none
    else
      match relSkipCommon (relElems base) (relElems targ) with
      | (b :: bs, ts, true) => if b = ['.', '.'] then none else some (relUp (b :: bs) ts)
      | (b :: bs, ts, false) => some (relUp (b :: bs) ts)
      | ([], ts, _) => some (joinSlash ts)

/-- The part of a path up to and including its last separator. -/
def dirPart (p : Str) : Str :=
  (p.reverse.dropWhile (fun c => c ≠ '/')).reverse

/-- The last element of a path: what follows its last separator. -/
def basePart (p : Str) : Str :=
  (p.reverse.takeWhile (fun c => c ≠ '/')).reverse

/-- Go `filepath.Dir`. -/
def filepath.Dir (p : Str) : Str :=
  filepath.Clean (dirPart p)

/-! ## Destinations and the extraction loop -/

/-- The cases of the `switch` of `expandArchives`, in order: the component
name of each `case` and the path it joins to `dstRoot`. -/
def componentTable : List (Str × Str) :=
  [("llvm".toList, "llvm".toList),
    ("cfe".toList, "llvm/tools/clang".toList),
    ("clang-tools-extra".toList, "llvm/tools/clang/tools/extra".toList),
    ("lld".toList, "llvm/tools/lld".toList),
    ("lldb".toList, "llvm/tools/lldb".toList),
    ("polly".toList, "llvm/tools/polly".toList),
    ("compiler-rt".toList, "llvm/projects/compiler-rt".toList),
    ("openmp".toList, "llvm/projects/openmp".toList),
    ("libcxx".toList, "llvm/projects/libcxx".toList),
    ("libcxxabi".toList, "llvm/projects/libcxxabi".toList),
    ("test-suite".toList, "llvm/projects/test-suite".toList),
    ("libunwind".toList, "llvm/projects/libunwind".toList)]

/-- The first `case` of a `switch` that equals `name`, if any. -/
def switchCase : List (Str × Str) → Str → Option Str
  | [], _ => none
  | (k, v) :: rest, name => if name = k then some v else switchCase rest name

/-- The `switch` of `expandArchives`: the directory a component is extracted
to, `filepath.Join(dstRoot, ...)` of its case, or `none` in the `default`
case. -/
def destination (dstRoot name : Str) : Option Str :=
  (switchCase componentTable name).map (filepath.Join dstRoot)

/-- The component names the `switch` of `expandArchives` has a case for. -/
def knownComponents : List Str :=
  ["llvm".toList, "cfe".toList, "clang-tools-extra".toList, "lld".toList, "lldb".toList,
    "polly".toList, "compiler-rt".toList, "openmp".toList, "libcxx".toList,
    "libcxxabi".toList, "test-suite".toList, "libunwind".toList]

/-- The prefix handed to `expandTarXz`: `fmt.Sprintf("%s-%s.src", name, version)`. -/
def relRootOf (name version : Str) : Str :=
  name ++ '-' :: version ++ ".src".toList

/-- Go `expandArchives`, over any state `σ` that extraction acts on.
`expand dstDir inFile relRoot` stands for `expandTarXz`: it gives the error it
returns, if any, and the state it leaves. -/
def expandArchives {σ : Type} (expand : Str → Str → Str → σ → Option ExtractError × σ)
    (dstRoot : Str) : List Archive → σ → Option WeaveError × σ
  | [], s => (none, s)
  | a :: rest, s =>
    match destination dstRoot a.name with
    | none => (some (.unknownComponent a.name), s)
    | some path =>
      match expand path a.path (relRootOf a.name a.version) s with
      | (some e, s1) => (some (.extraction e), s1)
      | (none, s1) => expandArchives expand dstRoot rest s1

/-- The output path `expandTarXz` computes for an archive entry named `name`:
its path relative to `relRoot` under the temporary directory when
`filepath.Rel` succeeds, and the entry name as it is otherwise. -/
def outPath (tmpDir relRoot name : Str) : Str :=
  match filepath.Rel relRoot name with
  | some rel => filepath.Join tmpDir rel
  | none => name

/-- The state left by extracting every record of `l` in order, each to its
destination, whatever the extractions return. -/
def extractAll {σ : Type} (expand : Str → Str → Str → σ → Option ExtractError × σ)
    (dstRoot : Str) (l : List Archive) (s : σ) : σ :=
  l.foldl (fun w a =>
    match destination dstRoot a.name with
    | none => w
    | some path => (expand path a.path (relRootOf a.name a.version) w).2) s

/-- Every extraction that `expandArchives` makes on `l` from the state `s`
succeeds: the record at the front, if it has a destination, is extracted
without error from `s`, and so are the following ones from the states the run
then reaches.  The run ends at a record without a destination, so nothing is
asked of the records after it. -/
def extractionsSucceed {σ : Type} (expand : Str → Str → Str → σ → Option ExtractError × σ)
    (dstRoot : Str) : List Archive → σ → Prop
  | [], _ => True
  | a :: rest, s =>
    match destination dstRoot a.name with
    | none => True
    | some path =>
      (expand path a.path (relRootOf a.name a.version) s).1 = none ∧
        extractionsSucceed expand dstRoot rest
          (expand path a.path (relRootOf a.name a.version) s).2

/-! ## Locations -/

/-- The elements of a path that `filepath.Clean` does not skip: all but the
empty ones and `.`. -/
def properElems (xs : List Str) : List Str :=
  xs.filter (fun e => decide (e ≠ []) && decide (e ≠ ['.']))

/-- A directory or file name proper: not empty, not `.`, not `..`, and
without a separator. -/
def IsName (e : Str) : Prop :=
  e ≠ [] ∧ e ≠ ['.'] ∧ e ≠ ['.', '.'] ∧ '/' ∉ e

instance (e : Str) : Decidable (IsName e) := by
  unfold IsName
  infer_instance

/-- An element `filepath.Clean` can leave in its buffer: a name or `..`. -/
def IsStackElem (e : Str) : Prop :=
  e ≠ [] ∧ e ≠ ['.'] ∧ '/' ∉ e

instance (e : Str) : Decidable (IsStackElem e) := by
  unfold IsStackElem
  infer_instance

/-- A place in the file tree: the names on the way from the root, the last one
first; `[]` is the root directory. -/
abbrev Loc := List Str

/-- The place a path string names for a process whose working directory is
`cwd`: the path is walked element by element from the root or from `cwd`, `..`
going one level up and staying at the root there.  Symbolic links are not
modelled. -/
def resolve (cwd : Loc) (p : Str) : Loc :=
  (splitSlash p).foldl (cleanStep true) (if isRooted p then [] else cwd)

/-- The file name an archive record was read from: stem, `-`, version and the
fixed suffix. -/
def archiveFileName (a : Archive) : Str :=
  a.name ++ '-' :: a.version ++ archiveSuffix

/-- Go's `<` on strings, by which `ioutil.ReadDir` sorts the entries: the
lexicographic order of the bytes, which for UTF-8 is that of the characters. -/
def nameLt (a b : Str) : Prop := List.Lex (fun x y : Char => x < y) a b

/-- The first destination is the second one or a directory above it: the
place it names lies on the way from the root to the place the second names. -/
def isAncestorOrSelf (cwd : Loc) (a b : Str) : Prop :=
  resolve cwd a <:+ resolve cwd b

instance (a b : Str) : Decidable (nameLt a b) := by
  unfold nameLt
  infer_instance

/-! ## The file tree, the archive stream and `expandTarXz` -/

/-- What there is at a place of the file tree. -/
inductive Node
  | dir (mode : Nat)
  | file (mode : Nat) (content : List Nat)
deriving DecidableEq, Repr

/-- The file tree: what there is at each place, if anything.  The root is
always a directory. -/
abbrev FileTree := Loc → Option Node

/-- The tree holding the listed nodes. -/
def treeOf : List (Loc × Node) → FileTree
  | [], _ => none
  | (l, n) :: rest, q => if q = l then some n else treeOf rest q

/-- The tree with node `n` at place `l`. -/
def put (t : FileTree) (l : Loc) (n : Node) : FileTree :=
  fun q => if q = l then some n else t q

/-- Whether `os.Stat` succeeds at a place. -/
def existsAt (t : FileTree) (l : Loc) : Bool :=
  decide (l = []) || (t l).isSome

/-- Whether a place is a directory. -/
def isDirAt (t : FileTree) (l : Loc) : Bool :=
  match l with
  | [] => true
  | _ :: _ =>
    match t l with
    | some (.dir _) => true
    | _ => false

/-- There is a regular file at a place. -/
def isFileAt (t : FileTree) (l : Loc) : Prop :=
  ∃ m content, t l = some (.file m content)

/-- Go `os.MkdirAll`: nothing to do at a directory, an error at a file, and
otherwise the parent is made first and then the directory itself. -/
def mkdirAll (t : FileTree) (l : Loc) (mode : Nat) : Option FileTree :=
  match l with
  | [] => some t
  | name :: parent =>
    match t (name :: parent) with
    | some (.dir _) => some t
    | some (.file _ _) => none
    | none =>
      match mkdirAll t parent mode with
      | none => none
      | some t1 => some (put t1 (name :: parent) (.dir mode))

/-- Go `os.OpenFile(path, O_CREATE|O_WRONLY|O_TRUNC, mode)`: the parent must be
a directory and the place itself must not be one; an existing file is
emptied, a missing one is created with `mode`. -/
def openFileTrunc (t : FileTree) (l : Loc) (mode : Nat) : Option FileTree :=
  match l with
  | [] => none
  | name :: parent =>
    if isDirAt t parent then
      match t (name :: parent) with
      | some (.dir _) => none
      | some (.file m _) => some (put t (name :: parent) (.file m []))
      | none => some (put t (name :: parent) (.file mode []))
    else none

/-- The file at `l` after `io.Copy` has written `content` to it. -/
def writeFile (t : FileTree) (l : Loc) (content : List Nat) : FileTree :=
  match t l with
  | some (.file m _) => put t l (.file m content)
  | _ => t

/-- Go `os.RemoveAll`: nothing is left at the place or below it. -/
def removeAll (t : FileTree) (l : Loc) : FileTree :=
  fun q => if l <:+ q then none else t q

/-- Go `os.Rename` of a directory to a place where there is nothing: what was
at or below `src` is then at or below `dst`.  It fails when there is nothing
at `src`. -/
def rename (t : FileTree) (src dst : Loc) : Option FileTree :=
  match t src with
  | none => none
  | some _ =>
    some (fun q =>
      if dst <:+ q then t (q.take (q.length - dst.length) ++ src)
      else if src <:+ q then none
      else t q)

/-- The type flag of a tar header, as far as `expandTarXz` tells them apart:
`tar.TypeDir`, `tar.TypeReg`, `tar.TypeRegA`, and all the others. -/
inductive TypeFlag
  | dir
  | reg
  | regA
  | other
deriving DecidableEq, Repr

/-- A tar entry: the header fields `expandTarXz` reads, and the bytes. -/
structure TarEntry where
  name : Str
  typeflag : TypeFlag
  mode : Nat
  content : List Nat
deriving DecidableEq, Repr

/-- What the tar reader over the decompressed archive delivers: the entries,
and then either `io.EOF` or, when `headerError` is set, another error. -/
structure TarStream where
  entries : List TarEntry
  headerError : Bool
deriving DecidableEq, Repr

/-- The calls of `expandTarXz` into the operating system and the readers. -/
inductive OsCall
  | mkdirAll (path : Str)
  | tempDir (dir : Str)
  | openInput (path : Str)
  | xzReader (path : Str)
  | openFile (path : Str)
  | copy (path : Str)
  | closeFile (path : Str)
  | closeInput (path : Str)
  | removeAll (path : Str)
  | rename (oldpath newpath : Str)
deriving DecidableEq, Repr

/-- What a run of `expandTarXz` depends on besides the file tree: the working
directory, the random digits `ioutil.TempDir` appends to the name it makes,
what each archive file decodes to, and which calls fail for a reason the file
tree does not show (permissions, an I/O error, a full disk). -/
structure Env where
  cwd : Loc
  tmpSuffix : List (Fin 10)
  archiveAt : Str → TarStream
  fails : OsCall → Bool

/-- The character of a decimal digit. -/
def digitChar (d : Fin 10) : Char := Char.ofNat (48 + d.val)

/-- The name `ioutil.TempDir(parentDir, "txz-")` makes. -/
def tmpName (env : Env) : Str :=
  "txz-".toList ++ env.tmpSuffix.map digitChar

/-- The `tar.TypeDir` case of the loop of `expandTarXz`: `os.MkdirAll` of the
output path with the mode of the entry. -/
def makeDirectory (env : Env) (out : Str) (e : TarEntry) (t : FileTree) :
    Option ExtractError × FileTree :=
  if env.fails (.mkdirAll out) then (some (.mkdirEntry out), t)
  else
    match mkdirAll t (resolve env.cwd out) e.mode with
    | none => (some (.mkdirEntry out), t)
    | some t1 => (none, t1)

/-- The `tar.TypeReg, tar.TypeRegA` case of the loop of `expandTarXz`: the
file is created or emptied, the bytes of the entry are copied into it, and it
is closed, with an error return at each of the three steps. -/
def writeRegular (env : Env) (out : Str) (e : TarEntry) (t : FileTree) :
    Option ExtractError × FileTree :=
  if env.fails (.openFile out) then (some (.createFile out), t)
  else
    match openFileTrunc t (resolve env.cwd out) e.mode with
    | none => (some (.createFile out), t)
    | some t1 =>
      if env.fails (.copy out) then (some (.copyContents out), t1)
      else if env.fails (.closeFile out) then
        (some (.closeFile out), writeFile t1 (resolve env.cwd out) e.content)
      else (none, writeFile t1 (resolve env.cwd out) e.content)

/-- The body of the loop of `expandTarXz` for one entry: the error it returns
with, if any, and the file tree it leaves.  Entries of other types are passed
over. -/
def extractEntry (env : Env) (tmpDir relRoot : Str) (e : TarEntry) (t : FileTree) :
    Option ExtractError × FileTree :=
  match e.typeflag with
  | .dir => makeDirectory env (outPath tmpDir relRoot e.name) e t
  | .reg => writeRegular env (outPath tmpDir relRoot e.name) e t
  | .regA => writeRegular env (outPath tmpDir relRoot e.name) e t
  | .other => (none, t)

/-- The loop of `expandTarXz` over the entries the tar reader delivers. -/
def extractEntries (env : Env) (tmpDir relRoot : Str) :
    List TarEntry → FileTree → Option ExtractError × FileTree
  | [], t => (none, t)
  | e :: rest, t =>
    match extractEntry env tmpDir relRoot e t with
    | (some err, t1) => (some err, t1)
    | (none, t1) => extractEntries env tmpDir relRoot rest t1

/-- The part of `expandTarXz` after the temporary directory is made, up to
its `return`, without the deferred removal of the temporary directory.  The
error of `os.Rename` is wrapped and dropped, and `nil` is returned. -/
def expandInto (env : Env) (dstDir inFile relRoot tmpDir : Str) (t : FileTree) :
    Option ExtractError × FileTree :=
  if env.fails (.openInput inFile) then (some .openInput, t)
  else if env.fails (.xzReader inFile) then (some .xzReader, t)
  else
    match extractEntries env tmpDir relRoot (env.archiveAt inFile).entries t with
    | (some err, t1) => (some err, t1)
    | (none, t1) =>
      if (env.archiveAt inFile).headerError then (some .tarHeader, t1)
      else if env.fails (.closeInput inFile) then (some .closeInput, t1)
      else if existsAt t1 (resolve env.cwd dstDir) && env.fails (.removeAll dstDir) then
        (some (.removeDst dstDir), t1)
      else
        let t2 :=
          if existsAt t1 (resolve env.cwd dstDir) then removeAll t1 (resolve env.cwd dstDir)
          else t1
        if env.fails (.rename tmpDir dstDir) then (none, t2)
        else
          match rename t2 (resolve env.cwd tmpDir) (resolve env.cwd dstDir) with
          | none => (none, t2)
          | some t3 => (none, t3)

/-- Go `expandTarXz`: the error it returns, if any, and the file tree it
leaves. -/
def expandTarXz (env : Env) (dstDir inFile relRoot : Str) (t : FileTree) :
    Option ExtractError × FileTree :=
  if env.fails (.mkdirAll (filepath.Dir dstDir)) then (some .mkdirParent, t)
  else
    match mkdirAll t (resolve env.cwd (filepath.Dir dstDir)) 0o755 with
    | none => (some .mkdirParent, t)
    | some t1 =>
      if env.fails (.tempDir (filepath.Dir dstDir)) ||
          existsAt t1 (resolve env.cwd (filepath.Join (filepath.Dir dstDir) (tmpName env))) then
        (some .tempDir, t1)
      else
        ((expandInto env dstDir inFile relRoot
            (filepath.Join (filepath.Dir dstDir) (tmpName env))
            (put t1 (resolve env.cwd (filepath.Join (filepath.Dir dstDir) (tmpName env)))
              (.dir 0o700))).1,
          removeAll
            (expandInto env dstDir inFile relRoot
              (filepath.Join (filepath.Dir dstDir) (tmpName env))
              (put t1 (resolve env.cwd (filepath.Join (filepath.Dir dstDir) (tmpName env)))
                (.dir 0o700))).2
            (resolve env.cwd (filepath.Join (filepath.Dir dstDir) (tmpName env))))

/-- Go `weave`, on a readable or unreadable source directory. -/
def weave (env : Env) (dstRoot srcDir : Str) (readDir : Option (List Str)) (t : FileTree) :
    Option WeaveError × FileTree :=
  match collectArchives srcDir readDir with
  | .error e => (some e, t)
  | .ok matched => expandArchives (expandTarXz env) dstRoot matched t

/-! ## Sample runs -/

/-- A target tree in which `/out/llvm` holds a file from an earlier run. -/
def sampleTree : FileTree :=
  treeOf [(["out".toList], .dir 0o755),
    (["llvm".toList, "out".toList], .dir 0o755),
    (["old.txt".toList, "llvm".toList, "out".toList], .file 0o644 [7])]

/-- A core archive whose entries all lie below `llvm-6.0.0.src`. -/
def sampleArchive : TarStream :=
  ⟨[⟨"llvm-6.0.0.src/".toList, .dir, 0o755, []⟩,
    ⟨"llvm-6.0.0.src/a.txt".toList, .reg, 0o644, [1, 2]⟩,
    ⟨"llvm-6.0.0.src/sub/".toList, .dir, 0o755, []⟩,
    ⟨"llvm-6.0.0.src/sub/b.txt".toList, .reg, 0o644, [3]⟩], false⟩

/-- A core archive with entries outside `llvm-6.0.0.src`: one with an absolute
name and two with a different first element. -/
def strayArchive : TarStream :=
  ⟨[⟨"llvm-6.0.0.src/".toList, .dir, 0o755, []⟩,
    ⟨"/evil.txt".toList, .reg, 0o644, [6]⟩,
    ⟨"other/".toList, .dir, 0o755, []⟩,
    ⟨"other/file.txt".toList, .reg, 0o644, [5]⟩], false⟩

/-- A core archive with an entry that leaves `llvm-6.0.0.src` through `..` and
comes back into it. -/
def detourArchive : TarStream :=
  ⟨[⟨"llvm-6.0.0.src/".toList, .dir, 0o755, []⟩,
    ⟨"llvm-6.0.0.src/../llvm-6.0.0.src/x".toList, .reg, 0o644, [4]⟩], false⟩

/-- A run in the root directory in which no call fails by itself and the
temporary directory gets the name `txz-123`. -/
def sampleEnv (archive : TarStream) : Env :=
  ⟨[], [1, 2, 3], fun _ => archive, fun _ => false⟩

/-- The same run, except that `os.Rename` of `/out/txz-123` to `/out/llvm`
fails. -/
def renameFailsEnv (archive : TarStream) : Env :=
  ⟨[], [1, 2, 3], fun _ => archive,
    fun call => decide (call = .rename "/out/txz-123".toList "/out/llvm".toList)⟩

/-! ## Discovery: auxiliary facts -/

theorem scanEntries_foldl (srcDir : Str) (d : List Str) (acc : List Archive) :
    d.foldl (fun archives f =>
      match archiveOf srcDir f with
      | none => archives
      | some a => archives ++ [a]) acc = acc ++ d.filterMap (archiveOf srcDir) := by
  induction d generalizing acc with
  | nil => simp
  | cons f fs ih =>
    simp only [List.foldl_cons, List.filterMap_cons]
    cases h : archiveOf srcDir f with
    | none => simpa using ih acc
    | some a => simpa using ih (acc ++ [a])

theorem scanEntries_eq (srcDir : Str) (d : List Str) :
    scanEntries srcDir d = d.filterMap (archiveOf srcDir) := by
  simpa [scanEntries] using scanEntries_foldl srcDir d []

theorem retainLoop_foldl (llvm : Archive) (archives acc : List Archive) (log : List Str) :
    (archives.foldl (fun st a =>
      ((st.1 ++ [a]), (if a.version ≠ llvm.version then st.2 ++ [a.path] else st.2)))
      (acc, log)).1 = acc ++ archives := by
  induction archives generalizing acc log with
  | nil => simp
  | cons a rest ih =>
    rw [List.foldl_cons, ih]
    simp

theorem retainLoop_fst (llvm : Archive) (archives : List Archive) :
    (retainLoop llvm archives).1 = archives := by
  simpa [retainLoop] using retainLoop_foldl llvm archives [] []

theorem findLLVMCoreFrom_none (i : Nat) (l : List Archive)
    (h : ∀ x ∈ l, x.name ≠ llvmName) : findLLVMCoreFrom i l = -1 := by
  induction l generalizing i with
  | nil => rfl
  | cons a rest ih =>
    have ha : a.name ≠ llvmName := h a (by simp)
    simp only [findLLVMCoreFrom, if_neg ha]
    exact ih (i + 1) (fun x hx => h x (by simp [hx]))

theorem findLLVMCoreFrom_split (i : Nat) (pre : List Archive) (a : Archive) (post : List Archive)
    (hpre : ∀ x ∈ pre, x.name ≠ llvmName) (ha : a.name = llvmName) :
    findLLVMCoreFrom i (pre ++ a :: post) = ((i + pre.length : Nat) : Int) := by
  induction pre generalizing i with
  | nil => simp [findLLVMCoreFrom, ha]
  | cons b rest ih =>
    have hb : b.name ≠ llvmName := hpre b (by simp)
    have e := ih (i + 1) (fun x hx => hpre x (by simp [hx]))
    rw [List.cons_append, findLLVMCoreFrom, if_neg hb, e]
    simp only [List.length_cons]
    congr 1
    omega

theorem exists_first_llvm (l : List Archive) (h : ∃ x ∈ l, x.name = llvmName) :
    ∃ pre a post, l = pre ++ a :: post ∧ (∀ x ∈ pre, x.name ≠ llvmName) ∧ a.name = llvmName := by
  induction l with
  | nil => simp at h
  | cons b rest ih =>
    by_cases hb : b.name = llvmName
    · exact ⟨[], b, rest, rfl, by simp, hb⟩
    · have : ∃ x ∈ rest, x.name = llvmName := by
        obtain ⟨x, hx, hn⟩ := h
        rcases List.mem_cons.1 hx with rfl | hx
        · exact absurd hn hb
        · exact ⟨x, hx, hn⟩
      obtain ⟨pre, a, post, he, hp, ha⟩ := ih this
      refine ⟨b :: pre, a, post, by simp [he], ?_, ha⟩
      intro x hx
      rcases List.mem_cons.1 hx with rfl | hx
      · exact hb
      · exact hp x hx

theorem collectArchives_empty (srcDir : Str) (d : List Str)
    (h : scanEntries srcDir d = []) :
    collectArchives srcDir (some d) = .error (.noMatchingArchives srcDir) := by
  simp [collectArchives, h]

theorem collectArchives_noCore (srcDir : Str) (d : List Str)
    (hne : scanEntries srcDir d ≠ [])
    (h : ∀ x ∈ scanEntries srcDir d, x.name ≠ llvmName) :
    collectArchives srcDir (some d) = .error (.missingCore srcDir) := by
  simp [collectArchives, hne, findLLVMCore, findLLVMCoreFrom_none 0 _ h]

theorem collectArchives_split (srcDir : Str) (d : List Str)
    (pre : List Archive) (a : Archive) (post : List Archive)
    (hs : scanEntries srcDir d = pre ++ a :: post)
    (hpre : ∀ x ∈ pre, x.name ≠ llvmName) (ha : a.name = llvmName) :
    collectArchives srcDir (some d) = .ok (a :: (pre ++ post)) := by
  simp only [collectArchives, hs, findLLVMCore, findLLVMCoreFrom_split 0 pre a post hpre ha,
    retainLoop_fst]
  have h0 : ¬ ((pre.length : Int) < 0) := by omega
  simp [h0, List.getElem_append_right]

theorem mem_scanEntries (srcDir : Str) (d : List Str) (a : Archive) :
    a ∈ scanEntries srcDir d ↔ ∃ f ∈ d, archiveOf srcDir f = some a := by
  simp [scanEntries_eq, List.mem_filterMap]

theorem archiveOf_eq_none (srcDir f : Str) :
    archiveOf srcDir f = none ↔ rxArchive f = none := by
  unfold archiveOf
  cases h : rxArchive f with
  | none => simp
  | some m => obtain ⟨w, s, v⟩ := m; simp

theorem archiveOf_eq_some (srcDir f : Str) (a : Archive) :
    archiveOf srcDir f = some a ↔
      ∃ w v, rxArchive f = some (w, a.name, v) ∧ a = ⟨filepath.Join srcDir w, a.name, v⟩ := by
  unfold archiveOf
  cases h : rxArchive f with
  | none => simp
  | some m =>
    obtain ⟨w, s, v⟩ := m
    constructor
    · intro e
      simp only [Option.some.injEq] at e
      subst e
      exact ⟨w, v, rfl, rfl⟩
    · rintro ⟨w', v', e, ea⟩
      simp only [Option.some.injEq, Prod.mk.injEq] at e
      obtain ⟨rfl, rfl, rfl⟩ := e
      simp only [Option.some.injEq]
      exact ea.symm

/-- The three outcomes of `collectArchives` on a readable directory. -/
theorem collectArchives_cases (srcDir : Str) (d : List Str) :
    ((∀ f ∈ d, rxArchive f = none) ∧
      collectArchives srcDir (some d) = .error (.noMatchingArchives srcDir)) ∨
    ((∃ f ∈ d, rxArchive f ≠ none) ∧
      (∀ f ∈ d, ∀ w s v, rxArchive f = some (w, s, v) → s ≠ llvmName) ∧
      collectArchives srcDir (some d) = .error (.missingCore srcDir)) ∨
    ((∃ f ∈ d, ∃ w v, rxArchive f = some (w, llvmName, v)) ∧
      ∃ r, collectArchives srcDir (some d) = .ok r) := by
  by_cases h1 : ∀ f ∈ d, rxArchive f = none
  · left
    refine ⟨h1, collectArchives_empty srcDir d ?_⟩
    rw [scanEntries_eq, List.filterMap_eq_nil_iff]
    intro f hf
    exact (archiveOf_eq_none srcDir f).2 (h1 f hf)
  · right
    have hne : scanEntries srcDir d ≠ [] := by
      intro e
      apply h1
      intro f hf
      rw [scanEntries_eq, List.filterMap_eq_nil_iff] at e
      exact (archiveOf_eq_none srcDir f).1 (e f hf)
    by_cases h2 : ∃ f ∈ d, ∃ w v, rxArchive f = some (w, llvmName, v)
    · right
      refine ⟨h2, ?_⟩
      obtain ⟨f, hf, w, v, e⟩ := h2
      have hm : ∃ x ∈ scanEntries srcDir d, x.name = llvmName := by
        refine ⟨⟨filepath.Join srcDir w, llvmName, v⟩, ?_, rfl⟩
        rw [mem_scanEntries]
        exact ⟨f, hf, by simp [archiveOf, e]⟩
      obtain ⟨pre, a, post, hs, hp, ha⟩ := exists_first_llvm _ hm
      exact ⟨_, collectArchives_split srcDir d pre a post hs hp ha⟩
    · left
      push_neg at h1
      refine ⟨h1, ?_, ?_⟩
      · intro f hf w s v e hs
        exact h2 ⟨f, hf, w, v, hs ▸ e⟩
      · apply collectArchives_noCore srcDir d hne
        intro x hx hn
        rw [mem_scanEntries] at hx
        obtain ⟨f, hf, e⟩ := hx
        obtain ⟨w, v, e', -⟩ := (archiveOf_eq_some srcDir f x).1 e
        exact h2 ⟨f, hf, w, v, hn ▸ e'⟩

/-- C4: on a readable directory `collectArchives` fails with the
no-matching-archives error exactly when no entry name matches the pattern,
fails with the missing-core error exactly when some entry matches but none has
the component name `llvm`, and succeeds exactly in the remaining case, when
some entry is an `llvm` archive. -/
theorem C4_collectArchives_outcome (srcDir : Str) (d : List Str) :
    (collectArchives srcDir (some d) = .error (.noMatchingArchives srcDir) ↔
      ∀ f ∈ d, rxArchive f = none) ∧
    (collectArchives srcDir (some d) = .error (.missingCore srcDir) ↔
      (∃ f ∈ d, rxArchive f ≠ none) ∧
        ∀ f ∈ d, ∀ w s v, rxArchive f = some (w, s, v) → s ≠ llvmName) ∧
    ((∃ r, collectArchives srcDir (some d) = .ok r) ↔
      ∃ f ∈ d, ∃ w v, rxArchive f = some (w, llvmName, v)) := by
  rcases collectArchives_cases srcDir d with ⟨h1, e⟩ | ⟨h1, h2, e⟩ | ⟨h1, r, e⟩
  · refine ⟨⟨fun _ => h1, fun _ => e⟩, ⟨fun e' => ?_, fun h => ?_⟩, ⟨fun h => ?_, fun h => ?_⟩⟩
    · rw [e] at e'; simp at e'
    · obtain ⟨⟨f, hf, hn⟩, -⟩ := h
      exact absurd (h1 f hf) hn
    · obtain ⟨r, e'⟩ := h
      rw [e] at e'; simp at e'
    · obtain ⟨f, hf, w, v, e'⟩ := h
      rw [h1 f hf] at e'; simp at e'
  · refine ⟨⟨fun e' => ?_, fun h => ?_⟩, ⟨fun _ => ⟨h1, h2⟩, fun _ => e⟩, ⟨fun h => ?_, fun h => ?_⟩⟩
    · rw [e] at e'; simp at e'
    · obtain ⟨f, hf, hn⟩ := h1
      exact absurd (h f hf) hn
    · obtain ⟨r, e'⟩ := h
      rw [e] at e'; simp at e'
    · obtain ⟨f, hf, w, v, e'⟩ := h
      exact absurd rfl (h2 f hf w llvmName v e')
  · refine ⟨⟨fun e' => ?_, fun h => ?_⟩, ⟨fun e' => ?_, fun h => ?_⟩, ⟨fun _ => h1, fun _ => ⟨r, e⟩⟩⟩
    · rw [e] at e'; simp at e'
    · obtain ⟨f, hf, w, v, e'⟩ := h1
      rw [h f hf] at e'; simp at e'
    · rw [e] at e'; simp at e'
    · obtain ⟨f, hf, w, v, e'⟩ := h1
      exact absurd rfl (h.2 f hf w llvmName v e')

/-- C2: for a directory listing made of one core archive, auxiliary archives
that all carry the core's version, and any number of names that do not match
the pattern, `collectArchives` returns the core record first, followed by
exactly the records of the auxiliary archives in the order of the listing;
names that do not match give no record. -/
theorem C2_core_first_aux_in_order (srcDir : Str) (pre post : List Str) (coreFile : Str)
    (core : Archive)
    (hcore : archiveOf srcDir coreFile = some core) (hname : core.name = llvmName)
    (hpre : ∀ a ∈ pre.filterMap (archiveOf srcDir),
      a.name ≠ llvmName ∧ a.version = core.version)
    (hpost : ∀ a ∈ post.filterMap (archiveOf srcDir),
      a.name ≠ llvmName ∧ a.version = core.version) :
    collectArchives srcDir (some (pre ++ coreFile :: post)) =
        .ok (core :: (pre ++ post).filterMap (archiveOf srcDir)) ∧
      ∀ a ∈ (pre ++ post).filterMap (archiveOf srcDir),
        a.name ≠ llvmName ∧ a.version = core.version := by
  refine ⟨?_, fun a ha => ?_⟩
  swap
  · rw [List.filterMap_append, List.mem_append] at ha
    exact ha.elim (hpre a) (hpost a)
  have hs : scanEntries srcDir (pre ++ coreFile :: post) =
      pre.filterMap (archiveOf srcDir) ++ core :: post.filterMap (archiveOf srcDir) := by
    simp [scanEntries_eq, List.filterMap_append, List.filterMap_cons, hcore]
  rw [collectArchives_split srcDir _ _ core _ hs (fun x hx => (hpre x hx).1) hname]
  simp [List.filterMap_append]

/-- A directory with unrelated files around a core archive and two auxiliary
archives of the core's version. -/
theorem C2_core_first_aux_in_order_witness :
    collectArchives "src".toList
      (some (["README".toList, "cfe-6.0.0.src.tar.xz".toList] ++
        "llvm-6.0.0.src.tar.xz".toList ::
        ["lld-6.0.0.src.tar.xz".toList, "llvm-6.0.0.src.tar.xz.sig".toList])) =
      .ok [⟨"src/llvm-6.0.0.src.tar.xz".toList, "llvm".toList, "6.0.0".toList⟩,
        ⟨"src/cfe-6.0.0.src.tar.xz".toList, "cfe".toList, "6.0.0".toList⟩,
        ⟨"src/lld-6.0.0.src.tar.xz".toList, "lld".toList, "6.0.0".toList⟩] :=
  (C2_core_first_aux_in_order "src".toList
    ["README".toList, "cfe-6.0.0.src.tar.xz".toList] 
    ["lld-6.0.0.src.tar.xz".toList, "llvm-6.0.0.src.tar.xz.sig".toList]
    "llvm-6.0.0.src.tar.xz".toList
    ⟨"src/llvm-6.0.0.src.tar.xz".toList, "llvm".toList, "6.0.0".toList⟩
    rfl rfl (by decide) (by decide)).1

/-- C1: with `cfe-5.0.0.src.tar.xz` next to `llvm-6.0.0.src.tar.xz` the
auxiliary archive of the other version is logged as rejected and is still part
of the returned sequence. -/
theorem C1_mismatched_version_retained :
    collectArchives "src".toList
        (some ["cfe-5.0.0.src.tar.xz".toList, "llvm-6.0.0.src.tar.xz".toList]) =
      .ok [⟨"src/llvm-6.0.0.src.tar.xz".toList, "llvm".toList, "6.0.0".toList⟩,
        ⟨"src/cfe-5.0.0.src.tar.xz".toList, "cfe".toList, "5.0.0".toList⟩] ∧
    rejectedPaths "src".toList
        ["cfe-5.0.0.src.tar.xz".toList, "llvm-6.0.0.src.tar.xz".toList] =
      ["src/cfe-5.0.0.src.tar.xz".toList] :=
  ⟨rfl, rfl⟩

/-- C9: with two core archives in the directory, `llvm-6.0.0.src.tar.xz` and
`llvm-7.0.0.src.tar.xz`, the second is logged as rejected and the returned
sequence has two records named `llvm`. -/
theorem C9_two_core_records :
    collectArchives "src".toList
        (some ["llvm-6.0.0.src.tar.xz".toList, "llvm-7.0.0.src.tar.xz".toList]) =
      .ok [⟨"src/llvm-6.0.0.src.tar.xz".toList, "llvm".toList, "6.0.0".toList⟩,
        ⟨"src/llvm-7.0.0.src.tar.xz".toList, "llvm".toList, "7.0.0".toList⟩] ∧
    rejectedPaths "src".toList
        ["llvm-6.0.0.src.tar.xz".toList, "llvm-7.0.0.src.tar.xz".toList] =
      ["src/llvm-7.0.0.src.tar.xz".toList] :=
  ⟨rfl, rfl⟩

theorem switchCase_eq_none_iff (table : List (Str × Str)) (name : Str) :
    switchCase table name = none ↔ name ∉ table.map Prod.fst := by
  induction table with
  | nil => simp [switchCase]
  | cons kv rest ih =>
    obtain ⟨k, v⟩ := kv
    by_cases h : name = k
    · simp [switchCase, h]
    · simp [switchCase, h, ih]

theorem destination_eq_none_iff (dstRoot name : Str) :
    destination dstRoot name = none ↔ name ∉ knownComponents := by
  have e : knownComponents = componentTable.map Prod.fst := rfl
  rw [e, ← switchCase_eq_none_iff]
  simp [destination]

theorem expandArchives_known {σ : Type}
    (expand : Str → Str → Str → σ → Option ExtractError × σ) (dstRoot : Str)
    (l : List Archive) (s : σ)
    (hok : extractionsSucceed expand dstRoot l s)
    (hk : ∀ a ∈ l, a.name ∈ knownComponents) :
    expandArchives expand dstRoot l s = (none, extractAll expand dstRoot l s) := by
  induction l generalizing s with
  | nil => rfl
  | cons a rest ih =>
    have hd : destination dstRoot a.name ≠ none := fun h =>
      (destination_eq_none_iff dstRoot a.name).1 h (hk a (by simp))
    obtain ⟨path, hp⟩ := Option.ne_none_iff_exists'.1 hd
    simp only [extractionsSucceed, hp] at hok
    obtain ⟨h1, h2⟩ := hok
    simp only [expandArchives, hp, extractAll, List.foldl_cons]
    cases he : expand path a.path (relRootOf a.name a.version) s with
    | mk e s1 =>
      rw [he] at h1 h2
      simp only at h1 h2
      subst h1
      simp only
      exact ih s1 h2 (fun x hx => hk x (by simp [hx]))

theorem expandArchives_first_unknown {σ : Type}
    (expand : Str → Str → Str → σ → Option ExtractError × σ) (dstRoot : Str)
    (pre : List Archive) (a : Archive) (post : List Archive) (s : σ)
    (hok : extractionsSucceed expand dstRoot (pre ++ a :: post) s)
    (hk : ∀ x ∈ pre, x.name ∈ knownComponents) (ha : a.name ∉ knownComponents) :
    expandArchives expand dstRoot (pre ++ a :: post) s =
      (some (.unknownComponent a.name), extractAll expand dstRoot pre s) := by
  induction pre generalizing s with
  | nil =>
    simp [expandArchives, (destination_eq_none_iff dstRoot a.name).2 ha, extractAll]
  | cons b rest ih =>
    have hd : destination dstRoot b.name ≠ none := fun h =>
      (destination_eq_none_iff dstRoot b.name).1 h (hk b (by simp))
    obtain ⟨path, hp⟩ := Option.ne_none_iff_exists'.1 hd
    simp only [List.cons_append, extractionsSucceed, hp] at hok
    obtain ⟨h1, h2⟩ := hok
    simp only [List.cons_append, expandArchives, hp, extractAll, List.foldl_cons]
    cases he : expand path b.path (relRootOf b.name b.version) s with
    | mk e s1 =>
      rw [he] at h1 h2
      simp only at h1 h2
      subst h1
      simp only
      exact ih s1 h2 (fun x hx => hk x (by simp [hx]))

theorem exists_first_unknown (l : List Archive) (h : ∃ x ∈ l, x.name ∉ knownComponents) :
    ∃ pre a post, l = pre ++ a :: post ∧ (∀ x ∈ pre, x.name ∈ knownComponents) ∧
      a.name ∉ knownComponents := by
  induction l with
  | nil => simp at h
  | cons b rest ih =>
    by_cases hb : b.name ∈ knownComponents
    · have : ∃ x ∈ rest, x.name ∉ knownComponents := by
        obtain ⟨x, hx, hn⟩ := h
        rcases List.mem_cons.1 hx with rfl | hx
        · exact absurd hb hn
        · exact ⟨x, hx, hn⟩
      obtain ⟨pre, a, post, he, hp, ha⟩ := ih this
      refine ⟨b :: pre, a, post, by simp [he], ?_, ha⟩
      intro x hx
      rcases List.mem_cons.1 hx with rfl | hx
      · exact hb
      · exact hp x hx
    · exact ⟨[], b, rest, rfl, by simp, hb⟩

/-- C5: when every extraction that the run of `expandArchives` makes succeeds
(each at the state the run has reached by then), `expandArchives` returns the
unknown-component error exactly when some record has a component name outside
the table of the `switch`; and then, with `a` the first such record, the error
names `a` and the state is the one left by extracting the records before `a`,
each to its destination, and nothing else. -/
theorem C5_unknown_component_fatal {σ : Type}
    (expand : Str → Str → Str → σ → Option ExtractError × σ) (dstRoot : Str)
    (archives : List Archive) (s : σ)
    (hok : extractionsSucceed expand dstRoot archives s) :
    ((∃ n, (expandArchives expand dstRoot archives s).1 = some (.unknownComponent n)) ↔
      ∃ a ∈ archives, a.name ∉ knownComponents) ∧
    ∀ pre a post, archives = pre ++ a :: post →
      (∀ x ∈ pre, x.name ∈ knownComponents) → a.name ∉ knownComponents →
      expandArchives expand dstRoot archives s =
        (some (.unknownComponent a.name), extractAll expand dstRoot pre s) := by
  have key : ∀ pre a post, archives = pre ++ a :: post →
      (∀ x ∈ pre, x.name ∈ knownComponents) → a.name ∉ knownComponents →
      expandArchives expand dstRoot archives s =
        (some (.unknownComponent a.name), extractAll expand dstRoot pre s) := by
    intro pre a post he hk ha
    subst he
    exact expandArchives_first_unknown expand dstRoot pre a post s hok hk ha
  refine ⟨⟨?_, ?_⟩, key⟩
  · rintro ⟨n, hn⟩
    by_contra hall
    push_neg at hall
    rw [expandArchives_known expand dstRoot archives s hok hall] at hn
    simp at hn
  · intro h
    obtain ⟨pre, a, post, he, hk, ha⟩ := exists_first_unknown archives h
    exact ⟨a.name, by rw [key pre a post he hk ha]⟩

/-- With `expandTarXz` on the sample tree and archive, and an unrecognised
`foo` between `llvm` and `cfe`: the core is extracted, so that `/out/llvm/a.txt`
is there, the unknown-component error names `foo`, and nothing of `cfe` is
extracted (`/out/llvm/tools` does not exist). -/
theorem C5_unknown_component_fatal_witness :
    expandArchives (expandTarXz (sampleEnv sampleArchive)) "/out".toList
        [⟨"src/llvm-6.0.0.src.tar.xz".toList, "llvm".toList, "6.0.0".toList⟩,
          ⟨"src/foo-6.0.0.src.tar.xz".toList, "foo".toList, "6.0.0".toList⟩,
          ⟨"src/cfe-6.0.0.src.tar.xz".toList, "cfe".toList, "6.0.0".toList⟩] sampleTree =
      (some (.unknownComponent "foo".toList),
        extractAll (expandTarXz (sampleEnv sampleArchive)) "/out".toList
          [⟨"src/llvm-6.0.0.src.tar.xz".toList, "llvm".toList, "6.0.0".toList⟩]
          sampleTree) ∧
    extractAll (expandTarXz (sampleEnv sampleArchive)) "/out".toList
        [⟨"src/llvm-6.0.0.src.tar.xz".toList, "llvm".toList, "6.0.0".toList⟩] sampleTree
        ["a.txt".toList, "llvm".toList, "out".toList] = some (.file 0o644 [1, 2]) ∧
    extractAll (expandTarXz (sampleEnv sampleArchive)) "/out".toList
        [⟨"src/llvm-6.0.0.src.tar.xz".toList, "llvm".toList, "6.0.0".toList⟩] sampleTree
        ["tools".toList, "llvm".toList, "out".toList] = none :=
  ⟨(C5_unknown_component_fatal (expandTarXz (sampleEnv sampleArchive)) "/out".toList
      [⟨"src/llvm-6.0.0.src.tar.xz".toList, "llvm".toList, "6.0.0".toList⟩,
        ⟨"src/foo-6.0.0.src.tar.xz".toList, "foo".toList, "6.0.0".toList⟩,
        ⟨"src/cfe-6.0.0.src.tar.xz".toList, "cfe".toList, "6.0.0".toList⟩] sampleTree
      ⟨by decide, trivial⟩).2
      [⟨"src/llvm-6.0.0.src.tar.xz".toList, "llvm".toList, "6.0.0".toList⟩]
      ⟨"src/foo-6.0.0.src.tar.xz".toList, "foo".toList, "6.0.0".toList⟩
      [⟨"src/cfe-6.0.0.src.tar.xz".toList, "cfe".toList, "6.0.0".toList⟩]
      rfl (by decide) (by decide), by decide, by decide⟩

/-- C3: for the target root `/out` the core archive is extracted to
`/out/llvm`, a subdirectory of the target root, not to `/out` itself. -/
theorem C3_core_not_at_root :
    destination "/out".toList "llvm".toList = some "/out/llvm".toList ∧
    destination "/out".toList "llvm".toList ≠ some "/out".toList := by
  decide

/-! ## Paths: auxiliary facts -/

theorem splitSlash_ne_nil (s : Str) : splitSlash s ≠ [] := by
  induction s with
  | nil => simp [splitSlash]
  | cons c cs ih =>
    unfold splitSlash
    split_ifs
    · simp
    · cases h : splitSlash cs with
      | nil => exact absurd h ih
      | cons x xs => simp

theorem splitSlash_cons_slash (b : Str) : splitSlash ('/' :: b) = [] :: splitSlash b := by
  simp [splitSlash]

theorem splitSlash_append_slash (a b : Str) :
    splitSlash (a ++ '/' :: b) = splitSlash a ++ splitSlash b := by
  induction a with
  | nil => simp [splitSlash]
  | cons c cs ih =>
    by_cases hc : c = '/'
    · subst hc
      simp [splitSlash, ih]
    · have e1 : splitSlash (c :: (cs ++ '/' :: b)) =
          (match splitSlash (cs ++ '/' :: b) with
            | [] => [[c]]
            | x :: xs => (c :: x) :: xs) := by
        rw [splitSlash, if_neg hc]
      have e2 : splitSlash (c :: cs) =
          (match splitSlash cs with
            | [] => [[c]]
            | x :: xs => (c :: x) :: xs) := by
        rw [splitSlash, if_neg hc]
      rw [List.cons_append, e1, e2, ih]
      cases h : splitSlash cs with
      | nil => exact absurd h (splitSlash_ne_nil cs)
      | cons x xs => rfl

theorem splitSlash_noSlash (s : Str) (h : '/' ∉ s) : splitSlash s = [s] := by
  induction s with
  | nil => rfl
  | cons c cs ih =>
    have hc : c ≠ '/' := fun e => h (by simp [e])
    have hcs : '/' ∉ cs := fun e => h (by simp [e])
    simp [splitSlash, hc, ih hcs]

theorem mem_splitSlash_noSlash (s : Str) : ∀ e ∈ splitSlash s, '/' ∉ e := by
  induction s with
  | nil => simp [splitSlash]
  | cons c cs ih =>
    by_cases hc : c = '/'
    · subst hc
      intro e he
      simp only [splitSlash, if_true, List.mem_cons] at he
      rcases he with rfl | he
      · simp
      · exact ih e he
    · simp only [splitSlash, if_neg hc]
      cases h : splitSlash cs with
      | nil => exact absurd h (splitSlash_ne_nil cs)
      | cons x xs =>
        rw [h] at ih
        intro e he
        simp only [List.mem_cons] at he
        rcases he with rfl | he
        · have hx := ih x (by simp)
          simp only [List.mem_cons, not_or]
          exact ⟨fun e => hc e.symm, hx⟩
        · exact ih e (by simp [he])

theorem splitSlash_joinSlash (xs : List Str) (hne : xs ≠ []) (h : ∀ e ∈ xs, '/' ∉ e) :
    splitSlash (joinSlash xs) = xs := by
  induction xs with
  | nil => exact absurd rfl hne
  | cons x rest ih =>
    cases rest with
    | nil => simpa [joinSlash] using splitSlash_noSlash x (h x (by simp))
    | cons y r =>
      rw [joinSlash, splitSlash_append_slash, splitSlash_noSlash x (h x (by simp)),
        ih (by simp) (fun e he => h e (by simp [he]))]
      rfl

theorem joinSlash_append_singleton (xs : List Str) (e : Str) (hne : xs ≠ []) :
    joinSlash (xs ++ [e]) = joinSlash xs ++ '/' :: e := by
  induction xs with
  | nil => exact absurd rfl hne
  | cons x rest ih =>
    cases rest with
    | nil => simp [joinSlash]
    | cons y r =>
      have := ih (by simp)
      simp only [List.cons_append] at this ⊢
      simp [joinSlash, this]

theorem cleanStep_name (r : Bool) (st : List Str) (e : Str) (h : IsName e) :
    cleanStep r st e = e :: st := by
  obtain ⟨h1, h2, h3, -⟩ := h
  simp [cleanStep, h1, h2, h3]

theorem foldl_cleanStep_names (r : Bool) (st : List Str) (ns : List Str)
    (h : ∀ e ∈ ns, IsName e) :
    ns.foldl (cleanStep r) st = ns.reverse ++ st := by
  induction ns generalizing st with
  | nil => rfl
  | cons e rest ih =>
    rw [List.foldl_cons, cleanStep_name r st e (h e (by simp)),
      ih _ (fun x hx => h x (by simp [hx]))]
    simp

theorem cleanStep_empty (r : Bool) (st : List Str) : cleanStep r st [] = st := by
  simp [cleanStep]

theorem cleanStep_dot (r : Bool) (st : List Str) : cleanStep r st ['.'] = st := by
  simp [cleanStep]

theorem cleanStep_dotdot_pop (r : Bool) (top : Str) (below : List Str)
    (h : top ≠ ['.', '.']) : cleanStep r (top :: below) ['.', '.'] = below := by
  simp [cleanStep, h]

theorem cleanStep_dotdot_rooted_nil : cleanStep true [] ['.', '.'] = [] := by
  simp [cleanStep]

theorem cleanStep_dotdot_push (st : List Str)
    (h : ∀ top below, st = top :: below → top = ['.', '.']) :
    cleanStep false st ['.', '.'] = ['.', '.'] :: st := by
  cases st with
  | nil => simp [cleanStep]
  | cons top below =>
    have := h top below rfl
    subst this
    simp [cleanStep]

theorem elem_cases (e : Str) :
    e = [] ∨ e = ['.'] ∨ e = ['.', '.'] ∨ (e ≠ [] ∧ e ≠ ['.'] ∧ e ≠ ['.', '.']) := by
  by_cases h1 : e = []
  · exact Or.inl h1
  · by_cases h2 : e = ['.']
    · exact Or.inr (Or.inl h2)
    · by_cases h3 : e = ['.', '.']
      · exact Or.inr (Or.inr (Or.inl h3))
      · exact Or.inr (Or.inr (Or.inr ⟨h1, h2, h3⟩))

theorem cleanStep_rooted_names (st : List Str) (e : Str) (he : '/' ∉ e)
    (h : ∀ x ∈ st, IsName x) : ∀ x ∈ cleanStep true st e, IsName x := by
  rcases elem_cases e with rfl | rfl | rfl | ⟨h1, h2, h3⟩
  · rw [cleanStep_empty]; exact h
  · rw [cleanStep_dot]; exact h
  · cases st with
    | nil => rw [cleanStep_dotdot_rooted_nil]; exact h
    | cons top below =>
      rw [cleanStep_dotdot_pop true top below (h top (by simp)).2.2.1]
      exact fun x hx => h x (by simp [hx])
  · rw [cleanStep_name true st e ⟨h1, h2, h3, he⟩]
    intro x hx
    rcases List.mem_cons.1 hx with rfl | hx
    · exact ⟨h1, h2, h3, he⟩
    · exact h x hx

theorem foldl_cleanStep_rooted_names (st : List Str) (xs : List Str)
    (hxs : ∀ e ∈ xs, '/' ∉ e) (h : ∀ x ∈ st, IsName x) :
    ∀ x ∈ xs.foldl (cleanStep true) st, IsName x := by
  induction xs generalizing st with
  | nil => exact h
  | cons e rest ih =>
    rw [List.foldl_cons]
    exact ih _ (fun x hx => hxs x (by simp [hx]))
      (cleanStep_rooted_names st e (hxs e (by simp)) h)

theorem cleanStep_stackElems (r : Bool) (st : List Str) (e : Str) (he : '/' ∉ e)
    (h : ∀ x ∈ st, IsStackElem x) : ∀ x ∈ cleanStep r st e, IsStackElem x := by
  rcases elem_cases e with rfl | rfl | rfl | ⟨h1, h2, h3⟩
  · rw [cleanStep_empty]; exact h
  · rw [cleanStep_dot]; exact h
  · have hd : IsStackElem ['.', '.'] := by decide
    cases st with
    | nil =>
      cases r
      · rw [cleanStep_dotdot_push [] (by simp)]
        simpa using hd
      · rw [cleanStep_dotdot_rooted_nil]; exact h
    | cons top below =>
      by_cases ht : top = ['.', '.']
      · subst ht
        cases r
        · rw [cleanStep_dotdot_push _ (by simp)]
          intro x hx
          rcases List.mem_cons.1 hx with rfl | hx
          · exact hd
          · exact h x hx
        · simp only [cleanStep]
          simpa using h
      · rw [cleanStep_dotdot_pop r top below ht]
        exact fun x hx => h x (by simp [hx])
  · rw [cleanStep_name r st e ⟨h1, h2, h3, he⟩]
    intro x hx
    rcases List.mem_cons.1 hx with rfl | hx
    · exact ⟨h1, h2, he⟩
    · exact h x hx

theorem foldl_cleanStep_stackElems (r : Bool) (st : List Str) (xs : List Str)
    (hxs : ∀ e ∈ xs, '/' ∉ e) (h : ∀ x ∈ st, IsStackElem x) :
    ∀ x ∈ xs.foldl (cleanStep r) st, IsStackElem x := by
  induction xs generalizing st with
  | nil => exact h
  | cons e rest ih =>
    rw [List.foldl_cons]
    exact ih _ (fun x hx => hxs x (by simp [hx]))
      (cleanStep_stackElems r st e (hxs e (by simp)) h)

theorem isRooted_append_slash (a b : Str) (h : a ≠ []) :
    isRooted (a ++ '/' :: b) = isRooted a := by
  cases a with
  | nil => exact absurd rfl h
  | cons c cs =>
    by_cases hc : c = '/'
    · subst hc; rfl
    · simp [isRooted, hc]

theorem joinSlash_head (x : Str) (rest : List Str) :
    ∃ t, joinSlash (x :: rest) = x ++ t := by
  cases rest with
  | nil => exact ⟨[], by simp [joinSlash]⟩
  | cons y r => exact ⟨'/' :: joinSlash (y :: r), rfl⟩

theorem isRooted_joinSlash (xs : List Str) (h : ∀ x ∈ xs, IsStackElem x) :
    isRooted (joinSlash xs) = false := by
  cases xs with
  | nil => rfl
  | cons x rest =>
    obtain ⟨t, ht⟩ := joinSlash_head x rest
    obtain ⟨h1, -, h3⟩ := h x (by simp)
    rw [ht]
    cases x with
    | nil => exact absurd rfl h1
    | cons c cs =>
      have hc : c ≠ '/' := fun e => h3 (by simp [e])
      simp [isRooted, hc]

theorem absorb_step (base R : List Str) (e : Str) (hR : ∀ x ∈ R, IsStackElem x) :
    (cleanStep false R e).reverse.foldl (cleanStep true) base =
      cleanStep true (R.reverse.foldl (cleanStep true) base) e := by
  rcases elem_cases e with rfl | rfl | rfl | ⟨h1, h2, h3⟩
  · simp [cleanStep_empty]
  · simp [cleanStep_dot]
  · cases R with
    | nil => rw [cleanStep_dotdot_push [] (by simp)]; rfl
    | cons top below =>
      by_cases ht : top = ['.', '.']
      · subst ht
        rw [cleanStep_dotdot_push _ (by simp)]
        simp [List.foldl_append]
      · obtain ⟨t1, t2, t3⟩ := hR top (by simp)
        rw [cleanStep_dotdot_pop false top below ht]
        simp only [List.reverse_cons, List.foldl_append, List.foldl_cons, List.foldl_nil]
        rw [cleanStep_name true _ top ⟨t1, t2, ht, t3⟩, cleanStep_dotdot_pop true top _ ht]
  · have e1 : cleanStep false R e = e :: R := by simp [cleanStep, h1, h2, h3]
    rw [e1]
    simp [List.foldl_append]

theorem absorb (xs : List Str) (base R : List Str) (hxs : ∀ e ∈ xs, '/' ∉ e)
    (hR : ∀ x ∈ R, IsStackElem x) :
    (xs.foldl (cleanStep false) R).reverse.foldl (cleanStep true) base =
      xs.foldl (cleanStep true) (R.reverse.foldl (cleanStep true) base) := by
  induction xs generalizing R with
  | nil => rfl
  | cons e rest ih =>
    rw [List.foldl_cons, List.foldl_cons,
      ih _ (fun x hx => hxs x (by simp [hx]))
        (cleanStep_stackElems false R e (hxs e (by simp)) hR),
      absorb_step base R e hR]

theorem cleanStack_stackElems (p : Str) : ∀ x ∈ cleanStack p, IsStackElem x :=
  foldl_cleanStep_stackElems _ [] _ (mem_splitSlash_noSlash p) (by simp)

theorem cleanStack_rooted_names (p : Str) (h : isRooted p = true) :
    ∀ x ∈ cleanStack p, IsName x := by
  unfold cleanStack
  rw [h]
  exact foldl_cleanStep_rooted_names [] _ (mem_splitSlash_noSlash p) (by simp)

theorem resolve_names (cwd : Loc) (p : Str) (h : ∀ x ∈ cwd, IsName x) :
    ∀ x ∈ resolve cwd p, IsName x := by
  unfold resolve
  apply foldl_cleanStep_rooted_names _ _ (mem_splitSlash_noSlash p)
  split_ifs
  · simp
  · exact h

/-- Cleaning a path does not change the place it names. -/
theorem resolve_Clean (cwd : Loc) (p : Str) :
    resolve cwd (filepath.Clean p) = resolve cwd p := by
  unfold filepath.Clean renderPath
  cases hr : isRooted p with
  | true =>
    have hn := cleanStack_rooted_names p hr
    simp only [if_true]
    have e1 : resolve cwd ('/' :: joinSlash (cleanStack p).reverse) =
        (splitSlash (joinSlash (cleanStack p).reverse)).foldl (cleanStep true) [] := by
      simp [resolve, isRooted, splitSlash_cons_slash, cleanStep_empty]
    rw [e1]
    have e2 : resolve cwd p = cleanStack p := by
      simp [resolve, cleanStack, hr]
    rw [e2]
    by_cases hst : cleanStack p = []
    · rw [hst]; rfl
    · rw [splitSlash_joinSlash _ (by simpa using hst)
        (fun e he => (hn e (by simpa using he)).2.2.2),
        foldl_cleanStep_names true [] _ (fun e he => hn e (by simpa using he))]
      simp
  | false =>
    have hs := cleanStack_stackElems p
    have e2 : resolve cwd p = (cleanStack p).reverse.foldl (cleanStep true) cwd := by
      have := absorb (splitSlash p) cwd [] (mem_splitSlash_noSlash p) (by simp)
      simp only [List.reverse_nil, List.foldl_nil] at this
      simp only [resolve, hr, cleanStack, this]
      simp
    rw [e2]
    simp only [Bool.false_eq_true, if_false]
    by_cases hst : cleanStack p = []
    · simp [hst, resolve, isRooted, splitSlash, cleanStep_dot]
    · simp only [hst, if_false]
      have hrt := isRooted_joinSlash (cleanStack p).reverse
        (fun x hx => hs x (by simpa using hx))
      simp only [resolve, hrt]
      rw [splitSlash_joinSlash _ (by simpa using hst)
        (fun e he => (hs e (by simpa using he)).2.2)]
      simp

theorem resolve_nil (cwd : Loc) : resolve cwd [] = cwd := by
  simp [resolve, isRooted, splitSlash, cleanStep_empty]

/-- Joining walks the second path from the place the first one names. -/
theorem resolve_Join (cwd : Loc) (a b : Str) (h : a ≠ [] ∨ isRooted b = false) :
    resolve cwd (filepath.Join a b) = (splitSlash b).foldl (cleanStep true) (resolve cwd a) := by
  unfold filepath.Join
  by_cases ha : a = []
  · subst ha
    have hb : isRooted b = false := h.resolve_left (by simp)
    rw [resolve_nil]
    by_cases hbn : b = []
    · subst hbn
      simp [resolve_nil, splitSlash, cleanStep_empty]
    · simp only [ne_eq, not_true_eq_false, if_false, hbn, not_false_eq_true, if_true]
      rw [resolve_Clean]
      simp [resolve, hb]
  · simp only [ne_eq, ha, not_false_eq_true, if_true]
    rw [resolve_Clean]
    simp only [resolve, isRooted_append_slash a b ha, splitSlash_append_slash,
      List.foldl_append]

/-! ## The name pattern: auxiliary facts -/

theorem digitsPlus_eq (s d r : Str) (h : digitsPlus s = some (d, r)) : s = d ++ r := by
  unfold digitsPlus at h
  split_ifs at h
  simp only [Option.some.injEq, Prod.mk.injEq] at h
  obtain ⟨rfl, rfl⟩ := h
  exact (List.takeWhile_append_dropWhile _ _).symm

theorem dotThen_eq (s r : Str) (h : dotThen s = some r) : s = '.' :: r := by
  unfold dotThen at h
  split at h
  · simp only [Option.some.injEq] at h
    subst h
    rfl
  · simp at h

theorem matchVersionTail_eq (s v : Str) (h : matchVersionTail s = some v) :
    s = '-' :: v ++ archiveSuffix := by
  unfold matchVersionTail at h
  split at h
  · rename_i r0
    cases h1 : digitsPlus r0 with
    | none => simp [h1] at h
    | some p1 =>
      obtain ⟨major, r1⟩ := p1
      simp only [h1] at h
      cases h2 : dotThen r1 with
      | none => simp [h2] at h
      | some r2 =>
        simp only [h2] at h
        cases h3 : digitsPlus r2 with
        | none => simp [h3] at h
        | some p3 =>
          obtain ⟨minor, r3⟩ := p3
          simp only [h3] at h
          cases h4 : dotThen r3 with
          | none => simp [h4] at h
          | some r4 =>
            simp only [h4] at h
            cases h5 : digitsPlus r4 with
            | none => simp [h5] at h
            | some p5 =>
              obtain ⟨patch, r5⟩ := p5
              simp only [h5] at h
              split_ifs at h with h6
              simp only [Option.some.injEq] at h
              subst h
              rw [digitsPlus_eq _ _ _ h1, dotThen_eq _ _ h2, digitsPlus_eq _ _ _ h3,
                dotThen_eq _ _ h4, digitsPlus_eq _ _ _ h5, h6]
              simp
  · simp at h

theorem matchStem_eq (acc s stem v : Str) (h : matchStem acc s = some (stem, v)) :
    acc ++ s = stem ++ '-' :: v ++ archiveSuffix := by
  induction s generalizing acc with
  | nil =>
    simp only [matchStem, Option.map_eq_some'] at h
    obtain ⟨v', hv, e⟩ := h
    have := matchVersionTail_eq _ _ hv
    simp at this
  | cons c cs ih =>
    unfold matchStem at h
    split at h
    · rename_i r hr
      simp only [Option.some.injEq] at h
      subst h
      split_ifs at hr
      have := ih (acc ++ [c]) hr
      simpa using this
    · simp only [Option.map_eq_some', Prod.mk.injEq] at h
      obtain ⟨v', hv, rfl, rfl⟩ := h
      rw [matchVersionTail_eq _ _ hv]
      simp

theorem rxArchive_eq (f w stem v : Str) (h : rxArchive f = some (w, stem, v)) :
    w = f ∧ f = stem ++ '-' :: v ++ archiveSuffix := by
  simp only [rxArchive, Option.map_eq_some', Prod.mk.injEq] at h
  obtain ⟨sv, hsv, hw, rfl, rfl⟩ := h
  exact ⟨hw.symm, by simpa using matchStem_eq [] f sv.1 sv.2 hsv⟩

theorem archiveOf_fileName (srcDir f : Str) (a : Archive) (h : archiveOf srcDir f = some a) :
    f = archiveFileName a := by
  obtain ⟨w, v, e, ea⟩ := (archiveOf_eq_some srcDir f a).1 h
  have := (rxArchive_eq f w a.name v e).2
  rw [ea]
  simpa [archiveFileName] using this

/-! ## Destinations: auxiliary facts -/

/-- C3: for every target root the destination `expandArchives` computes for
the core archive is `filepath.Join(dstRoot, "llvm")`, which names the directory
`llvm` directly inside the target root and never the target root itself. -/
theorem C3_core_destination (cwd : Loc) (dstRoot : Str) :
    destination dstRoot llvmName = some (filepath.Join dstRoot "llvm".toList) ∧
    resolve cwd (filepath.Join dstRoot "llvm".toList) = "llvm".toList :: resolve cwd dstRoot ∧
    resolve cwd (filepath.Join dstRoot "llvm".toList) ≠ resolve cwd dstRoot := by
  have e : resolve cwd (filepath.Join dstRoot "llvm".toList) =
      "llvm".toList :: resolve cwd dstRoot := by
    rw [resolve_Join cwd dstRoot "llvm".toList (Or.inr (by decide))]
    have : splitSlash "llvm".toList = ["llvm".toList] := by decide
    rw [this]
    simp [cleanStep]
  refine ⟨rfl, e, ?_⟩
  rw [e]
  intro h
  have := congrArg List.length h
  simp at this

theorem switchCase_mem (table : List (Str × Str)) (name rel : Str)
    (h : switchCase table name = some rel) : (name, rel) ∈ table := by
  induction table with
  | nil => simp [switchCase] at h
  | cons kv rest ih =>
    obtain ⟨k, v⟩ := kv
    by_cases hk : name = k
    · simp only [switchCase, hk, if_true, Option.some.injEq] at h
      simp [hk, h]
    · simp only [switchCase, hk, if_false] at h
      exact List.mem_cons_of_mem _ (ih h)

theorem destination_eq_some (dstRoot name dst : Str) (h : destination dstRoot name = some dst) :
    ∃ rel, (name, rel) ∈ componentTable ∧ dst = filepath.Join dstRoot rel := by
  simp only [destination, Option.map_eq_some'] at h
  obtain ⟨rel, hr, e⟩ := h
  exact ⟨rel, switchCase_mem _ _ _ hr, e.symm⟩

theorem componentTable_names :
    ∀ p ∈ componentTable, isRooted p.2 = false ∧ ∀ e ∈ splitSlash p.2, IsName e := by
  decide

/-- The place of a destination: the names of its table path below the place
of the target root. -/
theorem resolve_destination (cwd : Loc) (dstRoot name rel : Str)
    (h : (name, rel) ∈ componentTable) :
    resolve cwd (filepath.Join dstRoot rel) = (splitSlash rel).reverse ++ resolve cwd dstRoot := by
  obtain ⟨h1, h2⟩ := componentTable_names (name, rel) h
  rw [resolve_Join cwd dstRoot rel (Or.inr h1), foldl_cleanStep_names true _ _ h2]

theorem componentTable_nesting :
    ∀ p ∈ componentTable, ∀ q ∈ componentTable, splitSlash q.2 <+: splitSlash p.2 →
      q.1 = "llvm".toList ∨ (q.1 = "cfe".toList ∧ p.1 = "clang-tools-extra".toList) ∨
        q.1 = p.1 := by
  decide

theorem cte_not_lt_cfe (t1 t2 : Str) :
    ¬ nameLt ("clang-tools-extra".toList ++ t1) ("cfe".toList ++ t2) := by
  intro h
  simp only [nameLt, String.toList, List.cons_append] at h
  cases h with
  | cons h =>
    cases h with
    | rel h => exact absurd h (by decide)
  | rel h => exact absurd h (by decide)

theorem collectArchives_ok_split (srcDir : Str) (d : List Str) (res : List Archive)
    (h : collectArchives srcDir (some d) = .ok res) :
    ∃ pre a post, scanEntries srcDir d = pre ++ a :: post ∧
      (∀ x ∈ pre, x.name ≠ llvmName) ∧ a.name = llvmName ∧ res = a :: (pre ++ post) := by
  by_cases hne : scanEntries srcDir d = []
  · rw [collectArchives_empty srcDir d hne] at h
    simp at h
  · by_cases hex : ∃ x ∈ scanEntries srcDir d, x.name = llvmName
    · obtain ⟨pre, a, post, hs, hp, ha⟩ := exists_first_llvm _ hex
      rw [collectArchives_split srcDir d pre a post hs hp ha] at h
      simp only [Except.ok.injEq] at h
      exact ⟨pre, a, post, hs, hp, ha, h.symm⟩
    · push_neg at hex
      rw [collectArchives_noCore srcDir d hne hex] at h
      simp at h

/-- Whatever the versions, a successful `collectArchives` returns every record
of the scan: the returned sequence is a rearrangement of the scanned one. -/
theorem collectArchives_perm (srcDir : Str) (d : List Str) (res : List Archive)
    (h : collectArchives srcDir (some d) = .ok res) :
    res.Perm (scanEntries srcDir d) := by
  obtain ⟨pre, a, post, hs, -, -, rfl⟩ := collectArchives_ok_split srcDir d res h
  rw [hs]
  exact List.perm_middle.symm

/-- A later destination is neither an earlier one nor above it, for two
records with destinations, unless the later record is the core, or the two
have the same name, or the later is `cfe` and the earlier `clang-tools-extra`. -/
theorem destination_safe (cwd : Loc) (dstRoot : Str) (x y : Archive) (de dl : Str)
    (hx : destination dstRoot x.name = some de) (hy : destination dstRoot y.name = some dl)
    (h1 : y.name ≠ llvmName) (h2 : y.name ≠ x.name)
    (h3 : ¬ (y.name = "cfe".toList ∧ x.name = "clang-tools-extra".toList)) :
    ¬ isAncestorOrSelf cwd dl de := by
  obtain ⟨rx, hrx, rfl⟩ := destination_eq_some _ _ _ hx
  obtain ⟨ry, hry, rfl⟩ := destination_eq_some _ _ _ hy
  unfold isAncestorOrSelf
  rw [resolve_destination cwd dstRoot _ _ hrx, resolve_destination cwd dstRoot _ _ hry]
  intro hs
  have hp : splitSlash ry <+: splitSlash rx := by
    obtain ⟨t, ht⟩ := hs
    rw [← List.append_assoc] at ht
    have := List.append_cancel_right ht
    rw [← List.reverse_suffix]
    exact ⟨t, this⟩
  rcases componentTable_nesting _ hrx _ hry hp with h | h | h
  · exact h1 h
  · exact h3 h
  · exact h2 h

/-- C10: for a directory listing sorted ascending by file name in which every
archive has a recognised component name and no two archives have the same
component name, the sequence `collectArchives` returns is safe for
extractions that each replace their destination: every record has a
destination, and the destination of a record is never that of an earlier
record of the sequence, nor a directory above it. -/
theorem C10_sorted_listing_safe_order (cwd : Loc) (srcDir dstRoot : Str) (d : List Str)
    (res : List Archive)
    (hsorted : d.Pairwise nameLt)
    (hknown : ∀ a ∈ scanEntries srcDir d, a.name ∈ knownComponents)
    (hone : ((scanEntries srcDir d).map Archive.name).Nodup)
    (hres : collectArchives srcDir (some d) = .ok res) :
    (∀ r ∈ res, ∃ dst, destination dstRoot r.name = some dst) ∧
    res.Pairwise (fun earlier later =>
      ∀ de dl, destination dstRoot earlier.name = some de →
        destination dstRoot later.name = some dl → ¬ isAncestorOrSelf cwd dl de) := by
  obtain ⟨pre, a, post, hs, -, ha, rfl⟩ := collectArchives_ok_split srcDir d res hres
  refine ⟨fun r hr => ?_, ?_⟩
  · have hm : r ∈ scanEntries srcDir d := by
      rw [hs]
      simp only [List.mem_cons, List.mem_append] at hr ⊢
      tauto
    exact Option.ne_none_iff_exists'.1
      (fun e => (destination_eq_none_iff dstRoot r.name).1 e (hknown r hm))
  have hS : (scanEntries srcDir d).Pairwise
      (fun x y => nameLt (archiveFileName x) (archiveFileName y)) := by
    rw [scanEntries_eq]
    refine List.Pairwise.filterMap _ ?_ hsorted
    intro f f' hlt x hx y hy
    rw [← archiveOf_fileName srcDir f x hx, ← archiveOf_fileName srcDir f' y hy]
    exact hlt
  have hN : (scanEntries srcDir d).Pairwise (fun x y => x.name ≠ y.name) := by
    have := hone
    rw [List.Nodup, List.pairwise_map] at this
    exact this
  rw [hs] at hS hN
  have hNa : ∀ y ∈ pre ++ post, y.name ≠ llvmName := by
    intro y hy
    rw [← ha]
    rcases List.mem_append.1 hy with hy | hy
    · exact (List.pairwise_append.1 hN).2.2 y hy a (by simp)
    · exact ((List.pairwise_cons.1 (List.pairwise_append.1 hN).2.1).1 y hy).symm
  have hsub : (pre ++ post).Sublist (pre ++ a :: post) :=
    List.Sublist.append (List.Sublist.refl pre) (List.sublist_cons_self a post)
  rw [List.pairwise_cons]
  constructor
  · intro y hy de dl hde hdl
    refine destination_safe cwd dstRoot a y de dl hde hdl (hNa y hy) ?_ ?_
    · rw [ha]; exact hNa y hy
    · rintro ⟨-, h⟩
      rw [ha] at h
      exact absurd h (by decide)
  · refine List.Pairwise.imp_of_mem ?_ ((hS.and hN).sublist hsub)
    intro x y _ hy hxy de dl hde hdl
    refine destination_safe cwd dstRoot x y de dl hde hdl (hNa y hy) (fun e => hxy.2 e.symm) ?_
    rintro ⟨hy1, hx1⟩
    apply cte_not_lt_cfe ('-' :: x.version ++ archiveSuffix) ('-' :: y.version ++ archiveSuffix)
    have := hxy.1
    simp only [archiveFileName, hx1, hy1] at this
    simpa using this

/-- A sorted directory with the core, `cfe`, `clang-tools-extra` and `lld`. -/
theorem C10_sorted_listing_safe_order_witness :
    ([⟨"src/llvm-6.0.0.src.tar.xz".toList, "llvm".toList, "6.0.0".toList⟩,
      ⟨"src/cfe-6.0.0.src.tar.xz".toList, "cfe".toList, "6.0.0".toList⟩,
      ⟨"src/clang-tools-extra-6.0.0.src.tar.xz".toList, "clang-tools-extra".toList,
        "6.0.0".toList⟩,
      ⟨"src/lld-6.0.0.src.tar.xz".toList, "lld".toList, "6.0.0".toList⟩] :
        List Archive).Pairwise (fun earlier later =>
      ∀ de dl, destination "/out".toList earlier.name = some de →
        destination "/out".toList later.name = some dl → ¬ isAncestorOrSelf [] dl de) :=
  (C10_sorted_listing_safe_order [] "src".toList "/out".toList
    ["cfe-6.0.0.src.tar.xz".toList, "clang-tools-extra-6.0.0.src.tar.xz".toList,
      "lld-6.0.0.src.tar.xz".toList, "llvm-6.0.0.src.tar.xz".toList] _
    (by decide) (by decide) (by decide) rfl).2

/-! ## Entries below the prefix: auxiliary facts -/

theorem properElems_names (xs : List Str) (h1 : ∀ x ∈ xs, x ≠ ['.', '.'])
    (h2 : ∀ x ∈ xs, '/' ∉ x) : ∀ x ∈ properElems xs, IsName x := by
  intro x hx
  simp only [properElems, List.mem_filter, Bool.and_eq_true, decide_eq_true_eq] at hx
  exact ⟨hx.2.1, hx.2.2, h1 x hx.1, h2 x hx.1⟩

theorem foldl_cleanStep_noDotDot (r : Bool) (st : List Str) (xs : List Str)
    (h : ∀ x ∈ xs, x ≠ ['.', '.']) :
    xs.foldl (cleanStep r) st = (properElems xs).reverse ++ st := by
  induction xs generalizing st with
  | nil => rfl
  | cons e rest ih =>
    rw [List.foldl_cons, ih _ (fun x hx => h x (by simp [hx]))]
    rcases elem_cases e with rfl | rfl | rfl | ⟨h1, h2, h3⟩
    · simp [cleanStep_empty, properElems]
    · simp [cleanStep_dot, properElems]
    · exact absurd rfl (h _ (by simp))
    · have : cleanStep r st e = e :: st := by simp [cleanStep, h1, h2, h3]
      rw [this]
      simp [properElems, h1, h2]

theorem cleanStack_append_slash (a b : Str) (ha : a ≠ []) :
    cleanStack (a ++ '/' :: b) = (splitSlash b).foldl (cleanStep (isRooted a)) (cleanStack a) := by
  simp only [cleanStack, isRooted_append_slash a b ha, splitSlash_append_slash,
    List.foldl_append]

theorem joinSlash_ne_nil (xs : List Str) (hne : xs ≠ []) (h : ∀ x ∈ xs, x ≠ []) :
    joinSlash xs ≠ [] := by
  cases xs with
  | nil => exact absurd rfl hne
  | cons x rest =>
    obtain ⟨t, ht⟩ := joinSlash_head x rest
    rw [ht]
    have := h x (by simp)
    cases x with
    | nil => exact absurd rfl this
    | cons c cs => simp

theorem joinSlash_ne_dot (xs : List Str) (h : ∀ x ∈ xs, IsStackElem x) :
    joinSlash xs ≠ ['.'] := by
  cases xs with
  | nil => simp [joinSlash]
  | cons x rest =>
    cases rest with
    | nil => simpa [joinSlash] using (h x (by simp)).2.1
    | cons y r =>
      intro e
      have hx := (h x (by simp)).1
      have hl := congrArg List.length e
      simp only [joinSlash, List.length_append, List.length_cons, List.length_nil] at hl
      have : x.length ≠ 0 := by simpa using hx
      omega

theorem isRooted_ne_slash (s : Str) (h : isRooted s = false) : s ≠ ['/'] := by
  intro e
  subst e
  simp [isRooted] at h

/-- The elements `filepath.Rel` walks over in a cleaned path with a non-empty
buffer. -/
theorem relElems_renderPath (r : Bool) (st : List Str) (hne : st ≠ [])
    (h : ∀ x ∈ st, IsStackElem x) :
    renderPath r st ≠ ['.'] ∧
      relElems (renderPath r st) = (if r then [[]] else []) ++ st.reverse := by
  have hrev : ∀ x ∈ st.reverse, IsStackElem x := fun x hx => h x (by simpa using hx)
  have hrne : st.reverse ≠ [] := by simpa using hne
  have hj := joinSlash_ne_nil st.reverse hrne (fun x hx => (hrev x hx).1)
  have hsp := splitSlash_joinSlash st.reverse hrne (fun x hx => (hrev x hx).2.2)
  cases r with
  | true =>
    simp only [renderPath, if_true]
    refine ⟨by simp, ?_⟩
    simp only [relElems, List.cons_ne_nil, if_false]
    rw [if_neg (by simpa using hj), splitSlash_cons_slash, hsp]
    rfl
  | false =>
    simp only [renderPath, Bool.false_eq_true, if_false, hne]
    refine ⟨joinSlash_ne_dot _ hrev, ?_⟩
    simp only [relElems, hj, if_false]
    rw [if_neg (isRooted_ne_slash _ (isRooted_joinSlash _ hrev)), hsp]
    rfl

/-- The elements `filepath.Rel` walks over in the cleaned base path. -/
theorem relElems_base (r : Bool) (st : List Str) (h : ∀ x ∈ st, IsStackElem x) :
    relElems (if renderPath r st = ['.'] then [] else renderPath r st) =
      (if r then [[]] else []) ++ st.reverse := by
  by_cases hne : st = []
  · subst hne
    cases r <;> simp [renderPath, relElems, joinSlash]
  · obtain ⟨h1, h2⟩ := relElems_renderPath r st hne h
    rw [if_neg h1, h2]

theorem relSkipCommon_append (xs ys : List Str) :
    relSkipCommon xs (xs ++ ys) = ([], ys, false) := by
  induction xs with
  | nil => cases ys <;> rfl
  | cons x rest ih => simp [relSkipCommon, ih]

theorem isRooted_renderPath (r : Bool) (st : List Str) (h : ∀ x ∈ st, IsStackElem x) :
    isRooted (renderPath r st) = r := by
  cases r with
  | true => simp [renderPath, isRooted]
  | false =>
    by_cases hne : st = []
    · simp [renderPath, hne, isRooted]
    · simp only [renderPath, Bool.false_eq_true, if_false, hne]
      exact isRooted_joinSlash _ (fun x hx => h x (by simpa using hx))

theorem cleanStack_under (relRoot p : Str) (hr : relRoot ≠ [])
    (hp : ∀ x ∈ splitSlash p, x ≠ ['.', '.']) :
    cleanStack (relRoot ++ '/' :: p) =
      (properElems (splitSlash p)).reverse ++ cleanStack relRoot := by
  rw [cleanStack_append_slash relRoot p hr, foldl_cleanStep_noDotDot _ _ _ hp]

/-- For an entry named `relRoot/p`, with no `..` in `p`, `filepath.Rel` gives
the elements of `p` that are not skipped, or `.` when there are none. -/
theorem Rel_under (relRoot p : Str) (hr : relRoot ≠ [])
    (hp : ∀ x ∈ splitSlash p, x ≠ ['.', '.']) :
    filepath.Rel relRoot (relRoot ++ '/' :: p) =
      some (if properElems (splitSlash p) = [] then ['.']
        else joinSlash (properElems (splitSlash p))) := by
  have hst := cleanStack_under relRoot p hr hp
  have hB := cleanStack_stackElems relRoot
  have hpn := properElems_names (splitSlash p) hp (mem_splitSlash_noSlash p)
  have hT : ∀ x ∈ (properElems (splitSlash p)).reverse ++ cleanStack relRoot,
      IsStackElem x := by
    intro x hx
    rcases List.mem_append.1 hx with hx | hx
    · have := hpn x (by simpa using hx)
      exact ⟨this.1, this.2.1, this.2.2.2⟩
    · exact hB x hx
  have hclean : filepath.Clean (relRoot ++ '/' :: p) =
      renderPath (isRooted relRoot)
        ((properElems (splitSlash p)).reverse ++ cleanStack relRoot) := by
    rw [filepath.Clean, isRooted_append_slash relRoot p hr, hst]
  by_cases hn : properElems (splitSlash p) = []
  · have : filepath.Clean (relRoot ++ '/' :: p) = filepath.Clean relRoot := by
      rw [hclean, hn]
      rfl
    simp [filepath.Rel, this, hn]
  · have hne : filepath.Clean (relRoot ++ '/' :: p) ≠ filepath.Clean relRoot := by
      intro e
      have e2 := congrArg (resolve []) e
      rw [resolve_Clean, resolve_Clean] at e2
      have e3 : resolve [] (relRoot ++ '/' :: p) =
          (properElems (splitSlash p)).reverse ++ resolve [] relRoot := by
        simp only [resolve, isRooted_append_slash relRoot p hr, splitSlash_append_slash,
          List.foldl_append]
        rw [foldl_cleanStep_noDotDot _ _ _ hp]
      rw [e3] at e2
      have e4 := congrArg List.length e2
      simp only [List.length_append, List.length_reverse] at e4
      have : (properElems (splitSlash p)).length ≠ 0 := by simpa using hn
      omega
    have hsne : (properElems (splitSlash p)).reverse ++ cleanStack relRoot ≠ [] := by
      simpa using fun h => absurd h hn
    obtain ⟨-, hte⟩ := relElems_renderPath (isRooted relRoot) _ hsne hT
    have hbe := relElems_base (isRooted relRoot) (cleanStack relRoot) hB
    have hrb : isRooted (if filepath.Clean relRoot = ['.'] then []
        else filepath.Clean relRoot) = isRooted relRoot := by
      split_ifs with hd
      · have := isRooted_renderPath (isRooted relRoot) _ hB
        rw [← filepath.Clean, hd] at this
        rw [← this]
        rfl
      · exact isRooted_renderPath (isRooted relRoot) _ hB
    have hrt : isRooted (filepath.Clean (relRoot ++ '/' :: p)) = isRooted relRoot := by
      rw [hclean]
      exact isRooted_renderPath _ _ hT
    unfold filepath.Rel
    rw [if_neg hne]
    simp only [hrb, hrt, ne_eq, not_true_eq_false, if_false]
    rw [hclean, hte]
    have hb2 : relElems (if filepath.Clean relRoot = ['.'] then []
        else filepath.Clean relRoot) =
        (if isRooted relRoot then [[]] else []) ++ (cleanStack relRoot).reverse := hbe
    rw [hb2]
    have : (if isRooted relRoot = true then [[]] else []) ++
        ((properElems (splitSlash p)).reverse ++ cleanStack relRoot).reverse =
        ((if isRooted relRoot = true then [[]] else []) ++ (cleanStack relRoot).reverse) ++
          properElems (splitSlash p) := by
      simp
    rw [this, relSkipCommon_append]
    simp [hn]

/-- An entry named `relRoot/p`, with no `..` in `p`, gets the output path
`filepath.Join(tmpDir, p)`. -/
theorem outPath_under (tmpDir relRoot p : Str) (ht : tmpDir ≠ []) (hr : relRoot ≠ [])
    (hp : ∀ x ∈ splitSlash p, x ≠ ['.', '.']) :
    outPath tmpDir relRoot (relRoot ++ '/' :: p) = filepath.Join tmpDir p := by
  have hpn := properElems_names (splitSlash p) hp (mem_splitSlash_noSlash p)
  rw [outPath, Rel_under relRoot p hr hp]
  simp only [filepath.Join, ne_eq, ht, not_false_eq_true, if_true, filepath.Clean,
    isRooted_append_slash tmpDir _ ht, cleanStack_append_slash tmpDir _ ht]
  congr 1
  rw [foldl_cleanStep_noDotDot _ _ (splitSlash p) hp]
  by_cases hn : properElems (splitSlash p) = []
  · simp [hn, splitSlash, cleanStep_dot]
  · rw [if_neg hn, splitSlash_joinSlash _ hn (fun e he => (hpn e he).2.2.2),
      foldl_cleanStep_names _ _ _ hpn]

/-! ## The file tree: auxiliary facts -/

theorem mkdirAll_keeps (t t1 : FileTree) (l : Loc) (mode : Nat)
    (h : mkdirAll t l mode = some t1) (q : Loc) (n : Node) (hq : t q = some n) :
    t1 q = some n := by
  induction l generalizing t1 with
  | nil =>
    simp only [mkdirAll, Option.some.injEq] at h
    rw [← h]; exact hq
  | cons name parent ih =>
    unfold mkdirAll at h
    cases hl : t (name :: parent) with
    | some node =>
      cases node with
      | dir m =>
        simp only [hl, Option.some.injEq] at h
        rw [← h]; exact hq
      | file m c => simp [hl] at h
    | none =>
      simp only [hl] at h
      cases hp : mkdirAll t parent mode with
      | none => simp [hp] at h
      | some t2 =>
        simp only [hp, Option.some.injEq] at h
        rw [← h]
        have hne : q ≠ name :: parent := fun e => by
          rw [e, hl] at hq
          exact absurd hq (by simp)
        simp only [put, if_neg hne]
        exact ih t2 hp

theorem openFileTrunc_spec (t t1 : FileTree) (l : Loc) (mode : Nat)
    (h : openFileTrunc t l mode = some t1) :
    isFileAt t1 l ∧ ∀ q, q ≠ l → t1 q = t q := by
  cases l with
  | nil => simp [openFileTrunc] at h
  | cons name parent =>
    simp only [openFileTrunc] at h
    by_cases hd : isDirAt t parent = true
    · rw [if_pos hd] at h
      cases hl : t (name :: parent) with
      | some node =>
        cases node with
        | dir m => simp [hl] at h
        | file m c =>
          simp only [hl, Option.some.injEq] at h
          rw [← h]
          exact ⟨⟨m, [], by simp [put]⟩, fun q hq => by simp [put, hq]⟩
      | none =>
        simp only [hl, Option.some.injEq] at h
        rw [← h]
        exact ⟨⟨mode, [], by simp [put]⟩, fun q hq => by simp [put, hq]⟩
    · rw [if_neg hd] at h
      simp at h

theorem writeFile_spec (t : FileTree) (l : Loc) (content : List Nat) (h : isFileAt t l) :
    isFileAt (writeFile t l content) l ∧ ∀ q, q ≠ l → writeFile t l content q = t q := by
  obtain ⟨m, c, hl⟩ := h
  simp only [writeFile, hl]
  exact ⟨⟨m, content, by simp [put]⟩, fun q hq => by simp [put, hq]⟩

theorem makeDirectory_ok (env : Env) (out : Str) (e : TarEntry) (t t1 : FileTree)
    (h : makeDirectory env out e t = (none, t1)) :
    mkdirAll t (resolve env.cwd out) e.mode = some t1 := by
  unfold makeDirectory at h
  by_cases h1 : env.fails (.mkdirAll out) = true
  · rw [if_pos h1] at h
    simp at h
  · rw [if_neg h1] at h
    cases hm : mkdirAll t (resolve env.cwd out) e.mode with
    | none => simp [hm] at h
    | some t2 =>
      simp only [hm, Prod.mk.injEq, true_and] at h
      rw [h]

theorem writeRegular_ok (env : Env) (out : Str) (e : TarEntry) (t t1 : FileTree)
    (h : writeRegular env out e t = (none, t1)) :
    ∃ t0, openFileTrunc t (resolve env.cwd out) e.mode = some t0 ∧
      t1 = writeFile t0 (resolve env.cwd out) e.content := by
  unfold writeRegular at h
  by_cases h1 : env.fails (.openFile out) = true
  · rw [if_pos h1] at h
    simp at h
  · rw [if_neg h1] at h
    cases ho : openFileTrunc t (resolve env.cwd out) e.mode with
    | none => simp [ho] at h
    | some t2 =>
      simp only [ho] at h
      by_cases h2 : env.fails (.copy out) = true
      · rw [if_pos h2] at h
        simp at h
      · rw [if_neg h2] at h
        by_cases h3 : env.fails (.closeFile out) = true
        · rw [if_pos h3] at h
          simp at h
        · rw [if_neg h3] at h
          simp only [Prod.mk.injEq, true_and] at h
          exact ⟨t2, rfl, h.symm⟩

theorem writeRegular_grows (env : Env) (out : Str) (e : TarEntry) (t t1 : FileTree)
    (h : writeRegular env out e t = (none, t1)) :
    isFileAt t1 (resolve env.cwd out) ∧
      ∀ q, (isFileAt t q → isFileAt t1 q) ∧ ((t q).isSome = true → (t1 q).isSome = true) := by
  obtain ⟨t0, ho, rfl⟩ := writeRegular_ok env out e t t1 h
  obtain ⟨o1, o2⟩ := openFileTrunc_spec _ _ _ _ ho
  obtain ⟨w1, w2⟩ := writeFile_spec t0 _ e.content o1
  refine ⟨w1, fun q => ?_⟩
  by_cases hql : q = resolve env.cwd out
  · subst hql
    obtain ⟨m, c, hmc⟩ := w1
    exact ⟨fun _ => ⟨m, c, hmc⟩, fun _ => by rw [hmc]; rfl⟩
  · rw [isFileAt, isFileAt, w2 q hql, o2 q hql]
    exact ⟨id, id⟩

theorem extractEntry_grows (env : Env) (tmpDir relRoot : Str) (e : TarEntry)
    (t t1 : FileTree) (h : extractEntry env tmpDir relRoot e t = (none, t1)) (q : Loc) :
    (isFileAt t q → isFileAt t1 q) ∧ ((t q).isSome = true → (t1 q).isSome = true) := by
  unfold extractEntry at h
  cases hty : e.typeflag with
  | dir =>
    simp only [hty] at h
    have hm := makeDirectory_ok env _ e t t1 h
    constructor
    · rintro ⟨m, c, hmc⟩
      exact ⟨m, c, mkdirAll_keeps _ _ _ _ hm q _ hmc⟩
    · intro hq
      obtain ⟨n, hn⟩ := Option.isSome_iff_exists.1 hq
      rw [mkdirAll_keeps _ _ _ _ hm q n hn]; rfl
  | other =>
    simp only [hty, Prod.mk.injEq, true_and] at h
    rw [← h]
    exact ⟨id, id⟩
  | reg =>
    simp only [hty] at h
    exact (writeRegular_grows env _ e t t1 h).2 q
  | regA =>
    simp only [hty] at h
    exact (writeRegular_grows env _ e t t1 h).2 q

theorem extractEntry_writes (env : Env) (tmpDir relRoot : Str) (e : TarEntry)
    (t t1 : FileTree) (h : extractEntry env tmpDir relRoot e t = (none, t1))
    (hty : e.typeflag = .reg ∨ e.typeflag = .regA) :
    isFileAt t1 (resolve env.cwd (outPath tmpDir relRoot e.name)) := by
  unfold extractEntry at h
  rcases hty with hty | hty
  · simp only [hty] at h
    exact (writeRegular_grows env _ e t t1 h).1
  · simp only [hty] at h
    exact (writeRegular_grows env _ e t t1 h).1

theorem extractEntries_grows (env : Env) (tmpDir relRoot : Str) (es : List TarEntry)
    (t t1 : FileTree) (h : extractEntries env tmpDir relRoot es t = (none, t1)) (q : Loc) :
    (isFileAt t q → isFileAt t1 q) ∧ ((t q).isSome = true → (t1 q).isSome = true) := by
  induction es generalizing t with
  | nil =>
    simp only [extractEntries, Prod.mk.injEq, true_and] at h
    rw [← h]
    exact ⟨id, id⟩
  | cons e rest ih =>
    unfold extractEntries at h
    cases he : extractEntry env tmpDir relRoot e t with
    | mk r t2 =>
      cases r with
      | some err => simp [he] at h
      | none =>
        simp only [he] at h
        have h1 := extractEntry_grows env tmpDir relRoot e t t2 he q
        have h2 := ih t2 h
        exact ⟨fun x => h2.1 (h1.1 x), fun x => h2.2 (h1.2 x)⟩

theorem extractEntries_writes (env : Env) (tmpDir relRoot : Str) (es : List TarEntry)
    (t t1 : FileTree) (h : extractEntries env tmpDir relRoot es t = (none, t1))
    (e : TarEntry) (he : e ∈ es) (hty : e.typeflag = .reg ∨ e.typeflag = .regA) :
    isFileAt t1 (resolve env.cwd (outPath tmpDir relRoot e.name)) := by
  induction es generalizing t with
  | nil => simp at he
  | cons e0 rest ih =>
    unfold extractEntries at h
    cases h0 : extractEntry env tmpDir relRoot e0 t with
    | mk r t2 =>
      cases r with
      | some err => simp [h0] at h
      | none =>
        simp only [h0] at h
        rcases List.mem_cons.1 he with rfl | hm
        · exact (extractEntries_grows env tmpDir relRoot rest t2 t1 h _).1
            (extractEntry_writes env tmpDir relRoot e t t2 h0 hty)
        · exact ih t2 h hm

/-! ## Parent and temporary directory: auxiliary facts -/

theorem takeWhile_append_stop {α : Type} (p : α → Bool) (l1 : List α) (a : α) (l2 : List α)
    (h1 : ∀ x ∈ l1, p x = true) (ha : p a = false) :
    (l1 ++ a :: l2).takeWhile p = l1 := by
  induction l1 with
  | nil => simp [List.takeWhile, ha]
  | cons x rest ih =>
    have := ih (fun y hy => h1 y (by simp [hy]))
    simp [List.takeWhile, h1 x (by simp), this]

theorem dropWhile_append_stop {α : Type} (p : α → Bool) (l1 : List α) (a : α) (l2 : List α)
    (h1 : ∀ x ∈ l1, p x = true) (ha : p a = false) :
    (l1 ++ a :: l2).dropWhile p = a :: l2 := by
  induction l1 with
  | nil => simp [List.dropWhile, ha]
  | cons x rest ih =>
    have := ih (fun y hy => h1 y (by simp [hy]))
    simp [List.dropWhile, h1 x (by simp), this]

theorem basePart_append_slash (x e : Str) (he : '/' ∉ e) : basePart (x ++ '/' :: e) = e := by
  unfold basePart
  have : (x ++ '/' :: e).reverse = e.reverse ++ '/' :: x.reverse := by simp
  rw [this, takeWhile_append_stop _ _ _ _ (fun c hc => by
    have : c ≠ '/' := fun h => he (by rw [← h]; simpa using hc)
    simpa using this) (by simp)]
  simp

theorem dirPart_append_slash (x e : Str) (he : '/' ∉ e) :
    dirPart (x ++ '/' :: e) = x ++ ['/'] := by
  unfold dirPart
  have : (x ++ '/' :: e).reverse = e.reverse ++ '/' :: x.reverse := by simp
  rw [this, dropWhile_append_stop _ _ _ _ (fun c hc => by
    have : c ≠ '/' := fun h => he (by rw [← h]; simpa using hc)
    simpa using this) (by simp)]
  simp

theorem basePart_noSlash (e : Str) (he : '/' ∉ e) : basePart e = e := by
  unfold basePart
  rw [List.takeWhile_eq_self_iff.2 (fun c hc => by
    have : c ≠ '/' := fun h => he (by rw [← h]; simpa using hc)
    simpa using this)]
  simp

theorem dirPart_noSlash (e : Str) (he : '/' ∉ e) : dirPart e = [] := by
  unfold dirPart
  rw [List.dropWhile_eq_nil_iff.2 (fun c hc => by
    have : c ≠ '/' := fun h => he (by rw [← h]; simpa using hc)
    simpa using this)]
  simp

theorem renderPath_ne_nil (r : Bool) (st : List Str) (h : ∀ x ∈ st, IsStackElem x) :
    renderPath r st ≠ [] := by
  cases r with
  | true => simp [renderPath]
  | false =>
    by_cases hne : st = []
    · simp [renderPath, hne]
    · simp only [renderPath, Bool.false_eq_true, if_false, hne]
      exact joinSlash_ne_nil _ (by simpa using hne)
        (fun x hx => (h x (by simpa using hx)).1)

theorem Clean_ne_nil (p : Str) : filepath.Clean p ≠ [] :=
  renderPath_ne_nil _ _ (cleanStack_stackElems p)

theorem Join_ne_nil (a b : Str) (h : a ≠ [] ∨ b ≠ []) : filepath.Join a b ≠ [] := by
  unfold filepath.Join
  by_cases ha : a = []
  · have hb : b ≠ [] := h.resolve_left (fun x => x ha)
    simp only [ha, ne_eq, not_true_eq_false, if_false, hb, not_false_eq_true, if_true]
    exact Clean_ne_nil b
  · simp only [ne_eq, ha, not_false_eq_true, if_true]
    exact Clean_ne_nil _

/-- A cleaned path whose buffer ends in the name `e` is `e` itself, or a
directory part that ends in `/` followed by `e`. -/
theorem renderPath_cons (r : Bool) (e : Str) (rest : List Str) :
    renderPath r (e :: rest) = e ∨ ∃ x, renderPath r (e :: rest) = x ++ '/' :: e := by
  by_cases hne : rest = []
  · subst hne
    cases r with
    | true => exact Or.inr ⟨[], by simp [renderPath, joinSlash]⟩
    | false => exact Or.inl (by simp [renderPath, joinSlash])
  · have hj : joinSlash (e :: rest).reverse = joinSlash rest.reverse ++ '/' :: e := by
      rw [List.reverse_cons]
      exact joinSlash_append_singleton _ _ (by simpa using hne)
    cases r with
    | true =>
      exact Or.inr ⟨'/' :: joinSlash rest.reverse, by
        simp only [renderPath, if_true, hj, List.cons_append]⟩
    | false =>
      exact Or.inr ⟨joinSlash rest.reverse, by
        simp only [renderPath, Bool.false_eq_true, if_false, List.cons_ne_nil, hj]⟩

theorem resolve_noSlash (cwd : Loc) (e : Str) (he : '/' ∉ e) :
    resolve cwd e = cleanStep true cwd e := by
  have hr : isRooted e = false := by
    cases e with
    | nil => rfl
    | cons c cs =>
      have : c ≠ '/' := fun h => he (by simp [h])
      simp [isRooted, this]
  simp [resolve, hr, splitSlash_noSlash e he]

theorem resolve_append_slash (cwd : Loc) (x e : Str) (he : '/' ∉ e) :
    resolve cwd (x ++ '/' :: e) = cleanStep true (resolve cwd (x ++ ['/'])) e := by
  by_cases hx : x = []
  · subst hx
    simp [resolve, isRooted, splitSlash, splitSlash_noSlash e he, cleanStep_empty]
  · have h1 := isRooted_append_slash x e hx
    have h2 := isRooted_append_slash x [] hx
    simp only [resolve, h1, h2, splitSlash_append_slash, splitSlash_noSlash e he,
      List.foldl_append, List.foldl_cons, List.foldl_nil]
    simp [splitSlash, cleanStep_empty]

/-- A cleaned path whose buffer ends in a name names the place of that name
in the place of its `filepath.Dir`. -/
theorem resolve_Dir_renderPath (cwd : Loc) (r : Bool) (e : Str) (rest : List Str)
    (he : IsName e) :
    resolve cwd (renderPath r (e :: rest)) =
      e :: resolve cwd (filepath.Dir (renderPath r (e :: rest))) := by
  rcases renderPath_cons r e rest with h | ⟨x, h⟩
  · rw [h, filepath.Dir, dirPart_noSlash e he.2.2.2, resolve_Clean, resolve_nil,
      resolve_noSlash cwd e he.2.2.2, cleanStep_name true cwd e he]
  · rw [h, filepath.Dir, dirPart_append_slash x e he.2.2.2, resolve_Clean,
      resolve_append_slash cwd x e he.2.2.2, cleanStep_name true _ e he]

theorem digitChar_ne_slash : ∀ d : Fin 10, digitChar d ≠ '/' := by decide

theorem tmpName_noSlash (env : Env) : '/' ∉ tmpName env := by
  unfold tmpName
  intro h
  rcases List.mem_append.1 h with h | h
  · exact absurd h (by decide)
  · obtain ⟨d, -, hd⟩ := List.mem_map.1 h
    exact digitChar_ne_slash d hd

theorem tmpName_isName (env : Env) : IsName (tmpName env) := by
  refine ⟨?_, ?_, ?_, tmpName_noSlash env⟩ <;> simp [tmpName, String.toList]

theorem isRooted_of_append (a b : Str) (ha : a ≠ []) : isRooted (a ++ b) = isRooted a := by
  cases a with
  | nil => exact absurd rfl ha
  | cons c cs =>
    by_cases hc : c = '/'
    · subst hc; rfl
    · simp [isRooted, hc]

/-- The place of the temporary directory: its name in the place of the parent
directory. -/
theorem resolve_tmpDir (env : Env) (parentDir : Str) :
    resolve env.cwd (filepath.Join parentDir (tmpName env)) =
      tmpName env :: resolve env.cwd parentDir := by
  have hr : isRooted (tmpName env) = false := by
    unfold tmpName
    rw [isRooted_of_append _ _ (by decide)]
    rfl
  rw [resolve_Join _ _ _ (Or.inr hr), splitSlash_noSlash _ (tmpName_noSlash env)]
  simp [cleanStep_name true _ _ (tmpName_isName env)]

theorem componentTable_last :
    ∀ p ∈ componentTable, ∀ e ∈ (splitSlash p.2).reverse.head?,
      IsName e ∧ ¬ "txz-".toList <+: e := by
  decide

/-- The place of a destination: a name that does not start with `txz-`, in
the place of the parent directory `expandTarXz` computes for it. -/
theorem resolve_destination_parent (cwd : Loc) (dstRoot name rel : Str)
    (h : (name, rel) ∈ componentTable) :
    ∃ e, IsName e ∧ ¬ "txz-".toList <+: e ∧
      resolve cwd (filepath.Join dstRoot rel) =
        e :: resolve cwd (filepath.Dir (filepath.Join dstRoot rel)) := by
  obtain ⟨h1, h2⟩ := componentTable_names (name, rel) h
  have hl := componentTable_last (name, rel) h
  cases hrev : (splitSlash rel).reverse with
  | nil =>
    exact absurd (by simpa using hrev) (splitSlash_ne_nil rel)
  | cons e init =>
    rw [hrev] at hl
    obtain ⟨he, htxz⟩ := hl e (by simp)
    refine ⟨e, he, htxz, ?_⟩
    have hrel : rel ≠ [] := by
      intro hn
      subst hn
      have : e = [] := by
        simp [splitSlash] at hrev
        exact hrev.1
      exact he.1 this
    by_cases hd : dstRoot = []
    · subst hd
      have hj : filepath.Join [] rel = renderPath (isRooted rel) (e :: init) := by
        simp only [filepath.Join, ne_eq, not_true_eq_false, if_false, hrel,
          not_false_eq_true, if_true, filepath.Clean, cleanStack]
        rw [foldl_cleanStep_names _ _ _ h2, hrev]
        simp
      rw [hj]
      exact resolve_Dir_renderPath cwd _ e init he
    · have hj : filepath.Join dstRoot rel =
          renderPath (isRooted dstRoot) (e :: (init ++ cleanStack dstRoot)) := by
        simp only [filepath.Join, ne_eq, hd, not_false_eq_true, if_true, filepath.Clean,
          isRooted_append_slash dstRoot rel hd, cleanStack_append_slash dstRoot rel hd]
        rw [foldl_cleanStep_names _ _ _ h2, hrev]
        simp
      rw [hj]
      exact resolve_Dir_renderPath cwd _ e _ he

theorem relRootOf_ne_nil (name version : Str) : relRootOf name version ≠ [] := by
  unfold relRootOf
  cases name <;> simp

theorem suffix_same_length {α : Type} (a x b : List α) (h : a <:+ x ++ b)
    (hl : a.length = b.length) : a = b := by
  obtain ⟨t, ht⟩ := h
  have h1 := congrArg List.length ht
  simp only [List.length_append] at h1
  have h2 : t.length = x.length := by omega
  exact (List.append_inj ht h2).2

/-! ## A successful extraction -/

theorem removeAll_other (t : FileTree) (l q : Loc) (h : ¬ l <:+ q) :
    removeAll t l q = t q := by
  simp [removeAll, h]

theorem removeIfExists_other (t : FileTree) (l q : Loc) (h : ¬ l <:+ q) :
    (if existsAt t l = true then removeAll t l else t) q = t q := by
  split_ifs
  · exact removeAll_other t l q h
  · rfl

theorem rename_moves (t : FileTree) (src dst x : Loc) (n : Node) (h : t src = some n) :
    ∃ t1, rename t src dst = some t1 ∧ t1 (x ++ dst) = t (x ++ src) := by
  refine ⟨fun q =>
      if dst <:+ q then t (q.take (q.length - dst.length) ++ src)
      else if src <:+ q then none
      else t q, by simp only [rename, h], ?_⟩
  simp only
  rw [if_pos (List.suffix_append x dst)]
  simp

/-- What a return of `nil` from the part of `expandTarXz` after the temporary
directory is made says, when `os.Rename` is not made to fail: the loop went
through all entries, and the file tree is the one after the loop, with the
destination removed if it existed and the temporary directory renamed to it if
there was one. -/
theorem expandInto_ok (env : Env) (dstDir inFile relRoot tmpDir : Str) (t tX : FileTree)
    (h : expandInto env dstDir inFile relRoot tmpDir t = (none, tX))
    (hren : env.fails (.rename tmpDir dstDir) = false) :
    ∃ t1, extractEntries env tmpDir relRoot (env.archiveAt inFile).entries t = (none, t1) ∧
      tX = match rename (if existsAt t1 (resolve env.cwd dstDir) = true then
            removeAll t1 (resolve env.cwd dstDir) else t1)
          (resolve env.cwd tmpDir) (resolve env.cwd dstDir) with
        | none => (if existsAt t1 (resolve env.cwd dstDir) = true then
            removeAll t1 (resolve env.cwd dstDir) else t1)
        | some t3 => t3 := by
  unfold expandInto at h
  by_cases h1 : env.fails (.openInput inFile) = true
  · rw [if_pos h1] at h; simp at h
  rw [if_neg h1] at h
  by_cases h2 : env.fails (.xzReader inFile) = true
  · rw [if_pos h2] at h; simp at h
  rw [if_neg h2] at h
  cases he : extractEntries env tmpDir relRoot (env.archiveAt inFile).entries t with
  | mk r t1 =>
    cases r with
    | some err => simp [he] at h
    | none =>
      simp only [he] at h
      by_cases h3 : (env.archiveAt inFile).headerError = true
      · rw [if_pos h3] at h; simp at h
      rw [if_neg h3] at h
      by_cases h4 : env.fails (.closeInput inFile) = true
      · rw [if_pos h4] at h; simp at h
      rw [if_neg h4] at h
      by_cases h5 : (existsAt t1 (resolve env.cwd dstDir) &&
          env.fails (.removeAll dstDir)) = true
      · rw [if_pos h5] at h; simp at h
      rw [if_neg h5] at h
      simp only [hren, Bool.false_eq_true, if_false] at h
      refine ⟨t1, rfl, ?_⟩
      cases hr : rename (if existsAt t1 (resolve env.cwd dstDir) = true then
          removeAll t1 (resolve env.cwd dstDir) else t1)
          (resolve env.cwd tmpDir) (resolve env.cwd dstDir) with
      | none =>
        simp only [hr, Prod.mk.injEq, true_and] at h
        exact h.symm
      | some t3 =>
        simp only [hr, Prod.mk.injEq, true_and] at h
        exact h.symm

/-- What a return of `nil` from `expandTarXz` says: the parent directory was
made, the temporary directory was new, the rest returned `nil`, and the
deferred call removed the temporary directory. -/
theorem expandTarXz_ok (env : Env) (dstDir inFile relRoot : Str) (t t1 : FileTree)
    (h : expandTarXz env dstDir inFile relRoot t = (none, t1)) :
    ∃ t0 tX, mkdirAll t (resolve env.cwd (filepath.Dir dstDir)) 0o755 = some t0 ∧
      expandInto env dstDir inFile relRoot (filepath.Join (filepath.Dir dstDir) (tmpName env))
        (put t0 (resolve env.cwd (filepath.Join (filepath.Dir dstDir) (tmpName env)))
          (.dir 0o700)) = (none, tX) ∧
      t1 = removeAll tX
        (resolve env.cwd (filepath.Join (filepath.Dir dstDir) (tmpName env))) := by
  unfold expandTarXz at h
  by_cases h1 : env.fails (.mkdirAll (filepath.Dir dstDir)) = true
  · rw [if_pos h1] at h; simp at h
  rw [if_neg h1] at h
  cases hm : mkdirAll t (resolve env.cwd (filepath.Dir dstDir)) 0o755 with
  | none => simp [hm] at h
  | some t0 =>
    simp only [hm] at h
    by_cases h2 : (env.fails (.tempDir (filepath.Dir dstDir)) ||
        existsAt t0 (resolve env.cwd (filepath.Join (filepath.Dir dstDir) (tmpName env)))) = true
    · rw [if_pos h2] at h; simp at h
    rw [if_neg h2] at h
    simp only [Prod.mk.injEq] at h
    exact ⟨t0, _, rfl, Prod.ext h.1 rfl, h.2.symm⟩

/-- A regular-file entry named `<component>-<version>.src/p`, with no `..` in
`p`, of an archive that `expandTarXz` extracts to the destination of the
component: when `expandTarXz` returns `nil` and its `os.Rename` was not made to
fail, there is a regular file at `filepath.Join(dstDir, p)`. -/
theorem extracted_file_at_destination (env : Env) (t t1 : FileTree)
    (dstRoot c v p inFile dstDir : Str) (e : TarEntry)
    (hdst : destination dstRoot c = some dstDir)
    (hp : ∀ x ∈ splitSlash p, x ≠ ['.', '.'])
    (hmem : e ∈ (env.archiveAt inFile).entries)
    (hname : e.name = relRootOf c v ++ '/' :: p)
    (hty : e.typeflag = .reg ∨ e.typeflag = .regA)
    (hrun : expandTarXz env dstDir inFile (relRootOf c v) t = (none, t1))
    (hren : env.fails
      (.rename (filepath.Join (filepath.Dir dstDir) (tmpName env)) dstDir) = false) :
    isFileAt t1 (resolve env.cwd (filepath.Join dstDir p)) := by
  obtain ⟨rel, hrel, rfl⟩ := destination_eq_some _ _ _ hdst
  obtain ⟨e0, he0, htxz, hdstLoc⟩ := resolve_destination_parent env.cwd dstRoot c rel hrel
  have htmpLoc := resolve_tmpDir env (filepath.Dir (filepath.Join dstRoot rel))
  have hne : tmpName env ≠ e0 := by
    intro h
    apply htxz
    rw [← h]
    exact List.prefix_append _ _
  have hrelne : rel ≠ [] := by
    intro h
    have := (componentTable_names (c, rel) hrel).2 [] (by simp [h, splitSlash])
    exact this.1 rfl
  have htmpne : filepath.Join (filepath.Dir (filepath.Join dstRoot rel)) (tmpName env) ≠ [] :=
    Join_ne_nil _ _ (Or.inr (tmpName_isName env).1)
  have hdstne : filepath.Join dstRoot rel ≠ [] := Join_ne_nil _ _ (Or.inr hrelne)
  have hout := outPath_under _ (relRootOf c v) p htmpne (relRootOf_ne_nil c v) hp
  rw [← hname] at hout
  have hL : resolve env.cwd
      (filepath.Join (filepath.Join (filepath.Dir (filepath.Join dstRoot rel)) (tmpName env)) p) =
      (properElems (splitSlash p)).reverse ++
        tmpName env :: resolve env.cwd (filepath.Dir (filepath.Join dstRoot rel)) := by
    rw [resolve_Join _ _ _ (Or.inl htmpne), foldl_cleanStep_noDotDot _ _ _ hp, htmpLoc]
  have hD : resolve env.cwd (filepath.Join (filepath.Join dstRoot rel) p) =
      (properElems (splitSlash p)).reverse ++
        e0 :: resolve env.cwd (filepath.Dir (filepath.Join dstRoot rel)) := by
    rw [resolve_Join _ _ _ (Or.inl hdstne), foldl_cleanStep_noDotDot _ _ _ hp, hdstLoc]
  obtain ⟨t0, tX, -, hinto, rfl⟩ := expandTarXz_ok env _ inFile _ t t1 hrun
  obtain ⟨t3, hloop, rfl⟩ := expandInto_ok env _ inFile _ _ _ tX hinto hren
  rw [htmpLoc] at hloop ⊢
  rw [hD, hdstLoc]
  generalize resolve env.cwd (filepath.Dir (filepath.Join dstRoot rel)) = parent at *
  -- the file is written below the temporary directory and stays there
  have hfile : isFileAt t3 ((properElems (splitSlash p)).reverse ++ tmpName env :: parent) := by
    have := extractEntries_writes env _ _ _ _ t3 hloop e hmem hty
    rwa [hout, hL] at this
  have htmp : (t3 (tmpName env :: parent)).isSome = true :=
    (extractEntries_grows env _ _ _ _ t3 hloop _).2 (by simp [put])
  -- removing the destination does not touch the temporary directory
  have hns1 : ∀ x, ¬ (e0 :: parent) <:+ x ++ tmpName env :: parent := by
    intro x h
    have := suffix_same_length _ _ _ h (by simp)
    simp only [List.cons.injEq] at this
    exact hne this.1.symm
  have hns2 : ∀ x, ¬ (tmpName env :: parent) <:+ x ++ e0 :: parent := by
    intro x h
    have := suffix_same_length _ _ _ h (by simp)
    simp only [List.cons.injEq] at this
    exact hne this.1
  have h4file : isFileAt (if existsAt t3 (e0 :: parent) = true then
      removeAll t3 (e0 :: parent) else t3)
      ((properElems (splitSlash p)).reverse ++ tmpName env :: parent) := by
    rw [isFileAt, removeIfExists_other t3 _ _ (hns1 _)]
    exact hfile
  have h4tmp : ∃ n, (if existsAt t3 (e0 :: parent) = true then
      removeAll t3 (e0 :: parent) else t3) (tmpName env :: parent) = some n := by
    have := removeIfExists_other t3 (e0 :: parent) (tmpName env :: parent)
      (by simpa using hns1 [])
    rw [this]
    exact Option.isSome_iff_exists.1 htmp
  obtain ⟨n, hn⟩ := h4tmp
  -- the rename moves it below the destination, out of reach of the deferred removal
  obtain ⟨t5, hr, hmove⟩ := rename_moves _ (tmpName env :: parent) (e0 :: parent)
    (properElems (splitSlash p)).reverse n hn
  rw [hr]
  simp only
  rw [isFileAt, removeAll_other _ _ _ (hns2 _), hmove]
  exact h4file

/-- C8: for every component name, version and path `p` without a `..`
element, an entry named `<component>-<version>.src/p` gets from `expandTarXz`,
called with the prefix `<component>-<version>.src`, the output path
`filepath.Join(tmpDir, p)`; and if the entry is a regular file of an archive
extracted to the destination of the component, then, when `expandTarXz`
returns `nil` and its `os.Rename` was not made to fail, there is a regular
file at `filepath.Join(dstDir, p)`. -/
theorem C8_prefix_stripped (c v p : Str) (hp : ∀ x ∈ splitSlash p, x ≠ ['.', '.']) :
    (∀ tmpDir : Str, tmpDir ≠ [] →
      outPath tmpDir (relRootOf c v) (relRootOf c v ++ '/' :: p) =
        filepath.Join tmpDir p) ∧
    ∀ (env : Env) (t t1 : FileTree) (dstRoot inFile dstDir : Str) (e : TarEntry),
      destination dstRoot c = some dstDir →
      e ∈ (env.archiveAt inFile).entries →
      e.name = relRootOf c v ++ '/' :: p →
      (e.typeflag = .reg ∨ e.typeflag = .regA) →
      expandTarXz env dstDir inFile (relRootOf c v) t = (none, t1) →
      env.fails
        (.rename (filepath.Join (filepath.Dir dstDir) (tmpName env)) dstDir) = false →
      isFileAt t1 (resolve env.cwd (filepath.Join dstDir p)) :=
  ⟨fun tmpDir ht => outPath_under tmpDir (relRootOf c v) p ht (relRootOf_ne_nil c v) hp,
    fun env t t1 dstRoot inFile dstDir e hdst hmem hname hty hrun hren =>
      extracted_file_at_destination env t t1 dstRoot c v p inFile dstDir e hdst hp hmem
        hname hty hrun hren⟩

/-- The entry `llvm-6.0.0.src/sub/b.txt` of the sample archive gets the output
path `/out/txz-123/sub/b.txt` and, extracted to `/out/llvm`, is then the file
`/out/llvm/sub/b.txt`. -/
theorem C8_prefix_stripped_witness :
    outPath "/out/txz-123".toList (relRootOf "llvm".toList "6.0.0".toList)
        (relRootOf "llvm".toList "6.0.0".toList ++ '/' :: "sub/b.txt".toList) =
      filepath.Join "/out/txz-123".toList "sub/b.txt".toList ∧
    isFileAt
      (expandTarXz (sampleEnv sampleArchive) "/out/llvm".toList
        "src/llvm-6.0.0.src.tar.xz".toList (relRootOf "llvm".toList "6.0.0".toList)
        sampleTree).2
      (resolve (sampleEnv sampleArchive).cwd
        (filepath.Join "/out/llvm".toList "sub/b.txt".toList)) :=
  ⟨(C8_prefix_stripped "llvm".toList "6.0.0".toList "sub/b.txt".toList (by decide)).1
      "/out/txz-123".toList (by decide),
    (C8_prefix_stripped "llvm".toList "6.0.0".toList "sub/b.txt".toList (by decide)).2
      (sampleEnv sampleArchive) sampleTree _ "/out".toList
      "src/llvm-6.0.0.src.tar.xz".toList "/out/llvm".toList
      (TarEntry.mk "llvm-6.0.0.src/sub/b.txt".toList .reg 0o644 [3])
      (by decide) (by decide) (by decide) (Or.inl rfl) (Prod.ext (by decide) rfl) rfl⟩

/-- C8: the entry `llvm-6.0.0.src/../llvm-6.0.0.src/x`, which is
`<component>-<version>.src/p` for `p = ../llvm-6.0.0.src/x`, gets the output
path `/out/txz-123/x` and not `filepath.Join(tmpDir, p)`, which is
`/out/llvm-6.0.0.src/x`; after the extraction to `/out/llvm` the file is at
`/out/llvm/x` and there is nothing at `filepath.Join("/out/llvm", p)`. -/
theorem C8_detour_entry :
    outPath "/out/txz-123".toList (relRootOf "llvm".toList "6.0.0".toList)
        (relRootOf "llvm".toList "6.0.0".toList ++ '/' :: "../llvm-6.0.0.src/x".toList) =
      "/out/txz-123/x".toList ∧
    filepath.Join "/out/txz-123".toList "../llvm-6.0.0.src/x".toList =
      "/out/llvm-6.0.0.src/x".toList ∧
    (expandTarXz (sampleEnv detourArchive) "/out/llvm".toList
      "src/llvm-6.0.0.src.tar.xz".toList (relRootOf "llvm".toList "6.0.0".toList)
      sampleTree).1 = none ∧
    (expandTarXz (sampleEnv detourArchive) "/out/llvm".toList
      "src/llvm-6.0.0.src.tar.xz".toList (relRootOf "llvm".toList "6.0.0".toList)
      sampleTree).2 ["x".toList, "llvm".toList, "out".toList] = some (.file 0o644 [4]) ∧
    (expandTarXz (sampleEnv detourArchive) "/out/llvm".toList
      "src/llvm-6.0.0.src.tar.xz".toList (relRootOf "llvm".toList "6.0.0".toList)
      sampleTree).2
        (resolve [] (filepath.Join "/out/llvm".toList "../llvm-6.0.0.src/x".toList)) = none := by
  decide

/-- C6: when `os.Rename` fails, `expandTarXz` returns `nil`; what `/out/llvm`
held before is gone, and what the archive holds is not there either. -/
theorem C6_rename_failure_returns_nil :
    (expandTarXz (renameFailsEnv sampleArchive) "/out/llvm".toList
      "src/llvm-6.0.0.src.tar.xz".toList "llvm-6.0.0.src".toList sampleTree).1 = none ∧
    sampleTree ["old.txt".toList, "llvm".toList, "out".toList] = some (.file 0o644 [7]) ∧
    (expandTarXz (renameFailsEnv sampleArchive) "/out/llvm".toList
      "src/llvm-6.0.0.src.tar.xz".toList "llvm-6.0.0.src".toList sampleTree).2
        ["old.txt".toList, "llvm".toList, "out".toList] = none ∧
    (expandTarXz (renameFailsEnv sampleArchive) "/out/llvm".toList
      "src/llvm-6.0.0.src.tar.xz".toList "llvm-6.0.0.src".toList sampleTree).2
        ["llvm".toList, "out".toList] = none ∧
    (expandTarXz (renameFailsEnv sampleArchive) "/out/llvm".toList
      "src/llvm-6.0.0.src.tar.xz".toList "llvm-6.0.0.src".toList sampleTree).2
        ["a.txt".toList, "llvm".toList, "out".toList] = none ∧
    (expandTarXz (sampleEnv sampleArchive) "/out/llvm".toList
      "src/llvm-6.0.0.src.tar.xz".toList "llvm-6.0.0.src".toList sampleTree).2
        ["a.txt".toList, "llvm".toList, "out".toList] = some (.file 0o644 [1, 2]) := by
  decide

/-- C7: with the prefix `llvm-6.0.0.src` and the temporary directory
`/out/txz-123`, the entry `/evil.txt` gets the output path `/evil.txt` and the
entry `other/file.txt` the output path `/out/other/file.txt`, neither of them
`filepath.Join(tmpDir, name)` nor below the temporary directory; after the
extraction to `/out/llvm` the two files are at these places and not below
`/out/llvm`. -/
theorem C7_stray_entry_outside_tmpDir :
    outPath "/out/txz-123".toList "llvm-6.0.0.src".toList "/evil.txt".toList =
      "/evil.txt".toList ∧
    filepath.Join "/out/txz-123".toList "/evil.txt".toList = "/out/txz-123/evil.txt".toList ∧
    outPath "/out/txz-123".toList "llvm-6.0.0.src".toList "other/file.txt".toList =
      "/out/other/file.txt".toList ∧
    filepath.Join "/out/txz-123".toList "other/file.txt".toList =
      "/out/txz-123/other/file.txt".toList ∧
    (expandTarXz (sampleEnv strayArchive) "/out/llvm".toList
      "src/llvm-6.0.0.src.tar.xz".toList "llvm-6.0.0.src".toList sampleTree).1 = none ∧
    (expandTarXz (sampleEnv strayArchive) "/out/llvm".toList
      "src/llvm-6.0.0.src.tar.xz".toList "llvm-6.0.0.src".toList sampleTree).2
        ["evil.txt".toList] = some (.file 0o644 [6]) ∧
    (expandTarXz (sampleEnv strayArchive) "/out/llvm".toList
      "src/llvm-6.0.0.src.tar.xz".toList "llvm-6.0.0.src".toList sampleTree).2
        ["file.txt".toList, "other".toList, "out".toList] = some (.file 0o644 [5]) ∧
    (expandTarXz (sampleEnv strayArchive) "/out/llvm".toList
      "src/llvm-6.0.0.src.tar.xz".toList "llvm-6.0.0.src".toList sampleTree).2
        ["evil.txt".toList, "llvm".toList, "out".toList] = none ∧
    (expandTarXz (sampleEnv strayArchive) "/out/llvm".toList
      "src/llvm-6.0.0.src.tar.xz".toList "llvm-6.0.0.src".toList sampleTree).2
        ["file.txt".toList, "other".toList, "llvm".toList, "out".toList] = none := by
  decide

end Weave
